import Mathlib

/-!
Verification of the index-layout, combination and random-factory core of
`mpnum` (`mpnum/_tools.py` and `mpnum/factory.py`).

Dense numpy arrays of complex numbers are embedded as a `shape` together
with an entry function on multi-indices; complex scalars are embedded as
pairs of rationals (exact arithmetic in place of floating point).  Python
exceptions are embedded through `Except`.
-/

namespace Mpnum

/-- A complex number with rational coordinates: the exact-arithmetic stand-in
for a numpy complex scalar. -/
@[ext]
structure Cq where
  re : ℚ
  im : ℚ
deriving DecidableEq

instance : Zero Cq := ⟨⟨0, 0⟩⟩

instance : One Cq := ⟨⟨1, 0⟩⟩

instance : Add Cq := ⟨fun a b => ⟨a.re + b.re, a.im + b.im⟩⟩

instance : Neg Cq := ⟨fun a => ⟨-a.re, -a.im⟩⟩

instance : Mul Cq := ⟨fun a b => ⟨a.re * b.re - a.im * b.im, a.re * b.im + a.im * b.re⟩⟩

@[simp] theorem Cq.zero_re : (0 : Cq).re = 0 := rfl

@[simp] theorem Cq.zero_im : (0 : Cq).im = 0 := rfl

@[simp] theorem Cq.one_re : (1 : Cq).re = 1 := rfl

@[simp] theorem Cq.one_im : (1 : Cq).im = 0 := rfl

@[simp] theorem Cq.add_re (a b : Cq) : (a + b).re = a.re + b.re := rfl

@[simp] theorem Cq.add_im (a b : Cq) : (a + b).im = a.im + b.im := rfl

@[simp] theorem Cq.neg_re (a : Cq) : (-a).re = -a.re := rfl

@[simp] theorem Cq.neg_im (a : Cq) : (-a).im = -a.im := rfl

@[simp] theorem Cq.mul_re (a b : Cq) : (a * b).re = a.re * b.re - a.im * b.im := rfl

@[simp] theorem Cq.mul_im (a b : Cq) : (a * b).im = a.re * b.im + a.im * b.re := rfl

instance : CommRing Cq where
  add_assoc a b c := by ext <;> simp <;> ring
  zero_add a := by ext <;> simp
  add_zero a := by ext <;> simp
  add_comm a b := by ext <;> simp <;> ring
  neg_add_cancel a := by ext <;> simp
  mul_assoc a b c := by ext <;> simp <;> ring
  one_mul a := by ext <;> simp
  mul_one a := by ext <;> simp
  left_distrib a b c := by ext <;> simp <;> ring
  right_distrib a b c := by ext <;> simp <;> ring
  zero_mul a := by ext <;> simp
  mul_zero a := by ext <;> simp
  mul_comm a b := by ext <;> simp <;> ring
  nsmul := nsmulRec
  zsmul := zsmulRec

/-- Complex conjugation (`np.conj`). -/
def Cq.conj (z : Cq) : Cq := ⟨z.re, -z.im⟩

@[simp] theorem Cq.conj_re (z : Cq) : z.conj.re = z.re := rfl

@[simp] theorem Cq.conj_im (z : Cq) : z.conj.im = -z.im := rfl

/-- The squared modulus of a complex scalar. -/
def Cq.normSq (z : Cq) : ℚ := z.re * z.re + z.im * z.im

/-- Complex division, as numpy performs it on complex scalars.  Division by
zero yields zero (the exact-arithmetic stand-in for numpy's nan). -/
def Cq.div (x y : Cq) : Cq :=
  ⟨(x.re * y.re + x.im * y.im) / y.normSq, (x.im * y.re - x.re * y.im) / y.normSq⟩

/-- A dense multi-dimensional numpy array: its shape, and its entries read
at multi-indices (lists of coordinates, one per axis).  Only indices that
are valid for `shape` are ever meaningful. -/
structure Tensor where
  shape : List Nat
  entries : List Nat → Cq

instance : Inhabited Tensor := ⟨⟨[], fun _ => 0⟩⟩

/-- All valid multi-indices of a shape, row-major (last axis fastest). -/
def allIndices : List Nat → List (List Nat)
  | [] => [[]]
  | s :: rest => (List.range s).flatMap (fun i => (allIndices rest).map (fun idx => i :: idx))

/-- Extensional equality of arrays: same shape and same entries at every
valid multi-index (numpy's `array_equal`). -/
def TensorEq (A B : Tensor) : Prop :=
  A.shape = B.shape ∧ ∀ idx ∈ allIndices A.shape, A.entries idx = B.entries idx

instance (A B : Tensor) : Decidable (TensorEq A B) :=
  inferInstanceAs (Decidable (_ ∧ ∀ idx ∈ _, _ = _))

/-- Read a list at a list of positions (out-of-range positions read 0). -/
def gather (ord : List Nat) (idx : List Nat) : List Nat :=
  ord.map (fun a => idx.getD a 0)

/-- The positional inverse of a permutation list of `range n`: position `m`
holds the index at which `m` occurs in `ord`. -/
def invPerm (n : Nat) (ord : List Nat) : List Nat :=
  (List.range n).map (fun m => ord.indexOf m)

/-- `np.argsort` restricted to its use in `_tools.py`: on a permutation of
`range n` (the only arguments `block_diag` passes), argsorting returns the
inverse permutation. -/
def argsort (l : List Nat) : List Nat := invPerm l.length l

/-- `np.transpose(array, order)`: axis `k` of the result is axis `order[k]`
of the input, so the entry at result-index `idx` is the input entry at the
index whose `order[k]`-th coordinate is `idx[k]`. -/
def transposeT (T : Tensor) (order : List Nat) : Tensor :=
  ⟨gather order T.shape, fun idx => T.entries (gather (invPerm T.shape.length order) idx)⟩

/-- The Python exceptions the embedded routines can raise. -/
inductive NpError where
  | assertionError
  | zeroDivisionError
  | valueError
  | indexError
  | stopIteration
deriving DecidableEq

/-- `_tools.global_to_local(array, sites)`: after checking `ndim % sites == 0`
(Python raises `ZeroDivisionError` for `sites == 0` and `AssertionError` for a
failed check), transpose by `order[i] = i // plegs + sites * (i % plegs)` with
`plegs = ndim // sites`. -/
def global_to_local (array : Tensor) (sites : Nat) : Except NpError Tensor :=
  if sites = 0 then .error .zeroDivisionError
  else if array.shape.length % sites ≠ 0 then .error .assertionError
  else
    let plegs := array.shape.length / sites
    let order := (List.range (plegs * sites)).map (fun i => i / plegs + sites * (i % plegs))
    .ok (transposeT array order)

/-- `_tools.local_to_global(array, sites, left_skip, right_skip)`: the skipped
boundary axes pass through unchanged and the interior axes are transposed by
the order `(left_skip + plegs*i + j for j in range(plegs) for i in range(sites))`. -/
def local_to_global (array : Tensor) (sites left_skip right_skip : Nat) :
    Except NpError Tensor :=
  let ndim := array.shape.length - (left_skip + right_skip)
  if sites = 0 then .error .zeroDivisionError
  else if ndim % sites ≠ 0 then .error .assertionError
  else
    let plegs := ndim / sites
    let inner := (List.range plegs).flatMap
      (fun j => (List.range sites).map (fun i => left_skip + plegs * i + j))
    let order := List.range left_skip ++ inner ++
      List.range' (array.shape.length - right_skip) right_skip
    .ok (transposeT array order)

/-- `np.trace(array, axis1, axis2)` with `axis1 < axis2`: both axes are
removed and the entry at a reduced index is the sum over the diagonal of the
two removed axes (numpy sums `min` of the two extents diagonal elements). -/
def np_trace (array : Tensor) (axis1 axis2 : Nat) : Tensor :=
  ⟨(array.shape.eraseIdx axis2).eraseIdx axis1,
   fun idx => (List.range (min (array.shape.getD axis1 0) (array.shape.getD axis2 0))).foldr
     (fun i acc => array.entries ((idx.insertIdx axis1 i).insertIdx axis2 i) + acc) 0⟩

/-- `_tools.partial_trace(array, traceout)`: an empty trace-out list returns
the input itself; otherwise the row/column axis pair of the last listed site
(`traceout[-1]` and `traceout[-1] + sites`) is contracted with `np.trace` and
the routine recurses on `traceout[:-1]`.  The two-legs-per-site check
`ndim % 2 == 0` is only reached for a non-empty list. -/
def partial_trace (array : Tensor) (traceout : List Nat) : Except NpError Tensor :=
  match traceout with
  | [] => .ok array
  | t :: ts =>
    let sites := array.shape.length / 2
    if array.shape.length % 2 ≠ 0 then .error .assertionError
    else
      let last := (t :: ts).getLast!
      partial_trace (np_trace array last (last + sites)) (t :: ts).dropLast
termination_by traceout.length
decreasing_by simp [List.length_dropLast]

/-- `axes = np.array(axes); axes += (axes < 0) * summands[0].ndim`: negative
axis numbers are shifted by the rank. -/
def resolveAxes (axes : List Int) (ndim : Nat) : List Nat :=
  axes.map (fun a => (if a < 0 then a + (ndim : Int) else a).toNat)

/-- A zero-filled array (`np.zeros`). -/
def zerosT (shape : List Nat) : Tensor := ⟨shape, fun _ => 0⟩

/-- numpy's broadcast test for `res[pos] += array`: the leading `nr` axes of
the region carry the summand's own extents, and each trailing axis of the
summand must match the result's extent or be 1. -/
def broadcastOk (resShape arrShape : List Nat) (nr : Nat) : Bool :=
  (List.range resShape.length).all (fun m =>
    decide (m < nr) || arrShape.getD m 0 == resShape.getD m 0 || arrShape.getD m 0 == 1)

/-- Whether `idx` lies in the hyper-rectangle `[starts, starts + arrShape)`
on the leading `starts.length` axes (the sliced axes of `res[pos]`). -/
def inBlock (starts arrShape idx : List Nat) : Bool :=
  (List.range starts.length).all (fun m =>
    starts.getD m 0 ≤ idx.getD m 0 && idx.getD m 0 < starts.getD m 0 + arrShape.getD m 0)

/-- The summand-local index corresponding to `idx`: sliced axes are shifted
by `starts`, trailing axes of extent 1 broadcast (coordinate 0). -/
def blockLocalIdx (starts arrShape idx : List Nat) : List Nat :=
  (List.range arrShape.length).map (fun m =>
    if m < starts.length then idx.getD m 0 - starts.getD m 0
    else if arrShape.getD m 0 = 1 then 0 else idx.getD m 0)

/-- `res[pos] += array` for `pos = [slice(start, end) for ...]`: entries in
the block region gain the summand's broadcast entries, others are unchanged. -/
def sliceAdd (res : Tensor) (starts : List Nat) (arr : Tensor) : Tensor :=
  ⟨res.shape, fun idx =>
    res.entries idx +
    if inBlock starts arr.shape idx then arr.entries (blockLocalIdx starts arr.shape idx)
    else 0⟩

/-- The `for array, shape in zip(summands, shapes)` loop of `block_diag`:
each summand is added into its slice and `startpos` advances by the
summand's leading extents; an impossible broadcast raises `ValueError`. -/
def bdLoop : List Tensor → Tensor → List Nat → Except NpError Tensor
  | [], res, _ => .ok res
  | a :: rest, res, starts =>
    if broadcastOk res.shape a.shape starts.length then
      bdLoop rest (sliceAdd res starts a)
        ((List.range starts.length).map (fun m => starts.getD m 0 + a.shape.getD m 0))
    else .error .valueError

/-- `_tools.block_diag(summands, axes)`: resolve the axes, move them to the
front, allocate zeros of the combined shape, add each summand at its running
offset, and undo the axis reordering with `np.argsort(axes_order)`. -/
def block_diag (summands : List Tensor) (axes : List Int) : Except NpError Tensor :=
  match summands with
  | [] => .error .indexError
  | s0 :: _ =>
    let ndim := s0.shape.length
    let axesN := resolveAxes axes ndim
    let nr := axesN.length
    let axes_order := axesN ++ (List.range ndim).filter (fun i => !(axesN.contains i))
    let ts := summands.map (fun a => transposeT a axes_order)
    let shapes := ts.map (fun a => a.shape.take nr)
    let sumShape := (List.range nr).map (fun m => (shapes.map (fun sh => sh.getD m 0)).sum)
    let res := zerosT (sumShape ++ (ts.headD default).shape.drop nr)
    (bdLoop ts res (List.replicate nr 0)).map (fun r => transposeT r (argsort axes_order))

/-- The three forms `factory._generate` accepts for its `ldim` argument,
mirroring its `hasattr(-, '__iter__')` dispatch: a scalar, a flat sequence
of scalars, or a sequence of per-site leg-size sequences. -/
inductive LegSpec where
  | scalar (d : Nat)
  | flat (ds : List Nat)
  | nested (dss : List (List Nat))
deriving DecidableEq

/-- `factory._generate(sites, ldim, bdim, func)`.  `assert sites > 1` raises
`AssertionError`; `ldim[0]` on an empty sequence raises `IndexError`.  A
scalar or flat `ldim` puts the whole tuple of leg sizes on every site.  A
nested `ldim` is consumed through an iterator: `next` for the first site
(`StopIteration` if empty), `zip(range(sites - 2), ldim_iter)` for the
interior (truncating silently), and a final `next` for the last site
(`StopIteration` if exhausted); surplus entries are ignored.  The result is
the ordered list of local tensors handed to `mp.MPArray` (the external chain
type of the spec). -/
def _generate (sites : Nat) (ldim : LegSpec) (bdim : Nat) (func : List Nat → Tensor) :
    Except NpError (List Tensor) :=
  if sites ≤ 1 then .error .assertionError
  else
    let flatBuild : List Nat → List Tensor := fun ds =>
      [func (1 :: ds ++ [bdim])] ++
      (List.range (sites - 2)).map (fun _ => func (bdim :: ds ++ [bdim])) ++
      [func (bdim :: ds ++ [1])]
    match ldim with
    | .scalar d => .ok (flatBuild [d])
    | .flat [] => .error .indexError
    | .flat (d :: ds) => .ok (flatBuild (d :: ds))
    | .nested [] => .error .indexError
    | .nested (l0 :: rest) =>
      let mids := (rest.take (sites - 2)).map (fun ld => func (bdim :: ld ++ [bdim]))
      match rest.drop (sites - 2) with
      | [] => .error .stopIteration
      | lr :: _ => .ok ([func (1 :: l0 ++ [bdim])] ++ mids ++ [func (bdim :: lr ++ [1])])

/-- `factory.zero(sites, ldim, bdim)`: `_generate` with `np.zeros` as the
element factory. -/
def zero (sites : Nat) (ldim : LegSpec) (bdim : Nat) : Except NpError (List Tensor) :=
  _generate sites ldim bdim (fun shape => ⟨shape, fun _ => 0⟩)

/-- Row-major flat position of a multi-index (numpy's C-order layout). -/
def ravel : List Nat → List Nat → Nat
  | _ :: rest, i :: irest => i * rest.prod + ravel rest irest
  | _, _ => 0

/-- Row-major multi-index of a flat position. -/
def unravel : List Nat → Nat → List Nat
  | [], _ => []
  | s :: rest, k => (k / rest.prod) % s :: unravel rest k

/-- `array.reshape(newShape)`: the same row-major flat data reindexed. -/
def reshapeT (T : Tensor) (newShape : List Nat) : Tensor :=
  ⟨newShape, fun idx => T.entries (unravel T.shape (ravel newShape idx))⟩

/-- A dense `D × D` complex matrix. -/
def CMat (D : Nat) := Fin D → Fin D → Cq

instance (D : Nat) : DecidableEq (CMat D) :=
  inferInstanceAs (DecidableEq (Fin D → Fin D → Cq))

instance (D : Nat) : Zero (CMat D) := ⟨fun _ _ => 0⟩

/-- Matrix product. -/
def matMul {D : Nat} (A B : CMat D) : CMat D := fun i j => ∑ k, A i k * B k j

/-- `np.conj(mat.T)`. -/
def conjTrans {D : Nat} (A : CMat D) : CMat D := fun i j => (A j i).conj

/-- `np.trace` of a square matrix. -/
def traceM {D : Nat} (A : CMat D) : Cq := ∑ i, A i i

/-- Matrix–vector product. -/
def mulVec {D : Nat} (A : CMat D) (v : Fin D → Cq) : Fin D → Cq :=
  fun i => ∑ j, A i j * v j

/-- The Hermitian quadratic form `v† A v`. -/
def QForm {D : Nat} (A : CMat D) (v : Fin D → Cq) : Cq :=
  ∑ i, ∑ j, (v i).conj * A i j * v j

/-- Entrywise division of a matrix by a complex scalar (`rho /= np.trace(rho)`). -/
def matDiv {D : Nat} (A : CMat D) (z : Cq) : CMat D := fun i j => (A i j).div z

/-- The matrix `_zrandn((D, D), randstate)` drawn from the source's stream
`g`: numpy draws the `D * D` real parts row-major, then the `D * D`
imaginary parts. -/
def zrandnMat (D : Nat) (g : Nat → ℚ) : CMat D :=
  fun i j => ⟨g (i.val * D + j.val), g (D * D + (i.val * D + j.val))⟩

/-- A `D × D` matrix viewed as a two-axis array. -/
def matToTensor {D : Nat} (A : CMat D) : Tensor :=
  ⟨[D, D], fun idx =>
    if h : idx.getD 0 0 < D ∧ idx.getD 1 0 < D then A ⟨idx.getD 0 0, h.1⟩ ⟨idx.getD 1 0, h.2⟩
    else 0⟩

/-- The matrix `rho` of `factory.random_state` before its final reshape:
`mat = _zrandn(shape, randstate)`, `rho = np.conj(mat.T).dot(mat)`,
`rho /= np.trace(rho)`. -/
def random_state_rho (sites ldim : Nat) (g : Nat → ℚ) : CMat (ldim ^ sites) :=
  let mat := zrandnMat (ldim ^ sites) g
  let rho := matMul (conjTrans mat) mat
  matDiv rho (traceM rho)

/-- `factory.random_state(sites, ldim, randstate)`: the matrix `rho` above,
reshaped to the global form `(ldim,) * 2 * sites`. -/
def random_state (sites ldim : Nat) (g : Nat → ℚ) : Tensor :=
  reshapeT (matToTensor (random_state_rho sites ldim g)) (List.replicate (2 * sites) ldim)

/-- A tensor with `D * D` total entries viewed as a `D × D` matrix, row-major:
the inverse of `random_state`'s final reshape. -/
def matView (U : Tensor) (D : Nat) (i j : Nat) : Cq :=
  U.entries (unravel U.shape (i * D + j))

/-- `factory._zrandn(shape, randstate)`'s draw consumption: `2 * prod(shape)`
standard-normal draws (real parts then imaginary parts), taken from
`randstate` when one is supplied and from the global `np.random` stream
otherwise. -/
def _zrandn_draws (shape : List Nat) (randstate : Option (Nat → ℚ)) (np_random : Nat → ℚ) :
    List ℚ :=
  match randstate with
  | some rs => (List.range (2 * shape.prod)).map rs
  | none => (List.range (2 * shape.prod)).map np_random

/-- The draws consumed by `factory._gue(dim, randstate)`: line 318 calls
`_zrandn((dim, dim))` with no `randstate` argument, so all `2 * dim * dim`
draws come from the global `np.random` stream and the `randstate` parameter
is never consulted.  The subsequent `scipy.linalg.qr` factorisation and
phase correction are deterministic functions of these draws, so this list
determines the returned unitary. -/
def _gue_draws (dim : Nat) (randstate : Option (Nat → ℚ)) (np_random : Nat → ℚ) : List ℚ :=
  _zrandn_draws [dim, dim] none np_random

/-- The mixture weights of `factory.random_mpdo`, line 274:
`weights = (lambda x: x / np.sum(x))(np.random.rand(bdim))`.  The uniform
draws come from the global `np.random` source — the `randstate` argument of
`random_mpdo` is not consulted here, so the weights are not a function of it. -/
def random_mpdo_weights (bdim : Nat) (np_random : Nat → ℚ) : List ℚ :=
  let x := (List.range bdim).map np_random
  x.map (fun w => w / x.sum)

section CqLemmas

theorem Cq.conj_add (a b : Cq) : (a + b).conj = a.conj + b.conj := by
  ext <;> simp <;> ring

theorem Cq.conj_mul (a b : Cq) : (a * b).conj = a.conj * b.conj := by
  ext <;> simp <;> ring

theorem Cq.conj_zero : (0 : Cq).conj = 0 := by ext <;> simp

theorem Cq.conj_one : (1 : Cq).conj = 1 := by ext <;> simp

theorem Cq.conj_of_im_zero {z : Cq} (h : z.im = 0) : z.conj = z := by
  ext <;> simp [h]

/-- Conjugation as a ring homomorphism. -/
def Cq.conjHom : Cq →+* Cq where
  toFun := Cq.conj
  map_one' := Cq.conj_one
  map_mul' := Cq.conj_mul
  map_zero' := Cq.conj_zero
  map_add' := Cq.conj_add

theorem Cq.conj_sum {ι : Type} (s : Finset ι) (f : ι → Cq) :
    (∑ i in s, f i).conj = ∑ i in s, (f i).conj :=
  map_sum Cq.conjHom f s

/-- The real part as an additive homomorphism. -/
def Cq.reHom : Cq →+ ℚ where
  toFun := Cq.re
  map_zero' := rfl
  map_add' := fun _ _ => rfl

/-- The imaginary part as an additive homomorphism. -/
def Cq.imHom : Cq →+ ℚ where
  toFun := Cq.im
  map_zero' := rfl
  map_add' := fun _ _ => rfl

theorem Cq.re_sum {ι : Type} (s : Finset ι) (f : ι → Cq) :
    (∑ i in s, f i).re = ∑ i in s, (f i).re :=
  map_sum Cq.reHom f s

theorem Cq.im_sum {ι : Type} (s : Finset ι) (f : ι → Cq) :
    (∑ i in s, f i).im = ∑ i in s, (f i).im :=
  map_sum Cq.imHom f s

theorem Cq.conj_mul_self (z : Cq) : z.conj * z = ⟨z.normSq, 0⟩ := by
  ext <;> simp [Cq.normSq] <;> ring

theorem Cq.normSq_nonneg (z : Cq) : 0 ≤ z.normSq := by
  have h1 := mul_self_nonneg z.re
  have h2 := mul_self_nonneg z.im
  simp only [Cq.normSq]
  linarith

theorem Cq.normSq_pos {z : Cq} (h : z ≠ 0) : 0 < z.normSq := by
  rcases lt_or_eq_of_le (Cq.normSq_nonneg z) with hlt | heq
  · exact hlt
  · exfalso
    apply h
    have hre := mul_self_nonneg z.re
    have him := mul_self_nonneg z.im
    simp only [Cq.normSq] at heq
    have hre0 : z.re = 0 := by nlinarith
    have him0 : z.im = 0 := by nlinarith
    ext <;> simp [hre0, him0]

theorem Cq.div_add_div (a b c : Cq) : a.div c + b.div c = (a + b).div c := by
  ext <;> simp [Cq.div, Cq.normSq] <;> ring

theorem Cq.zero_div (c : Cq) : (0 : Cq).div c = 0 := by
  ext <;> simp [Cq.div]

/-- Division by a fixed scalar as an additive homomorphism. -/
def Cq.divHom (c : Cq) : Cq →+ Cq where
  toFun := fun z => z.div c
  map_zero' := Cq.zero_div c
  map_add' := fun a b => (Cq.div_add_div a b c).symm

theorem Cq.sum_div {ι : Type} (s : Finset ι) (f : ι → Cq) (c : Cq) :
    (∑ i in s, f i).div c = ∑ i in s, (f i).div c :=
  map_sum (Cq.divHom c) f s

theorem Cq.div_self {z : Cq} (h : z ≠ 0) : z.div z = 1 := by
  have hn : z.normSq ≠ 0 := (Cq.normSq_pos h).ne'
  ext
  · simp only [Cq.div, Cq.one_re]
    rw [show z.re * z.re + z.im * z.im = z.normSq from rfl]
    field_simp
  · simp only [Cq.div, Cq.one_im]
    rw [show z.im * z.re - z.re * z.im = 0 from by ring]
    simp

theorem Cq.div_mul (a b c : Cq) : a.div c * b = (a * b).div c := by
  ext <;> simp [Cq.div, Cq.normSq] <;> ring

theorem Cq.conj_div (a c : Cq) : (a.div c).conj = a.conj.div c.conj := by
  ext <;> simp [Cq.div, Cq.normSq] <;> ring

theorem Cq.div_real {z : Cq} {t : ℚ} (ht : t ≠ 0) :
    z.div ⟨t, 0⟩ = ⟨z.re / t, z.im / t⟩ := by
  ext
  · simp only [Cq.div, Cq.normSq]
    field_simp
    ring
  · simp only [Cq.div, Cq.normSq]
    field_simp
    ring

end CqLemmas

section Lemmas

theorem getD_lt {α : Type} (l : List α) (d : α) (k : Nat) (h : k < l.length) :
    l.getD k d = l[k] := by
  simp [List.getD, List.getElem?_eq_getElem h]

theorem getD_map_range {α : Type} (f : Nat → α) (d : α) (n k : Nat) (h : k < n) :
    ((List.range n).map f).getD k d = f k := by
  have h2 : k < ((List.range n).map f).length := by simpa using h
  rw [getD_lt _ _ _ h2, List.getElem_map, List.getElem_range]

theorem gather_length (ord idx : List Nat) : (gather ord idx).length = ord.length := by
  simp [gather]

theorem gather_getD (ord idx : List Nat) (k : Nat) (h : k < ord.length) :
    (gather ord idx).getD k 0 = idx.getD (ord.getD k 0) 0 := by
  rw [gather, getD_lt _ _ _ (by simpa using h), List.getElem_map, getD_lt ord _ _ h]

theorem gather_gather (p q idx : List Nat) (h : ∀ a ∈ p, a < q.length) :
    gather p (gather q idx) = gather (gather p q) idx := by
  unfold gather
  rw [List.map_map]
  refine List.map_congr_left (fun a ha => ?_)
  have hlt : a < q.length := h a ha
  simp only [Function.comp]
  rw [getD_lt _ _ _ (by simpa using hlt), List.getElem_map, getD_lt q _ _ hlt]

theorem gather_range (n : Nat) (idx : List Nat) (h : idx.length = n) :
    gather (List.range n) idx = idx := by
  subst h
  unfold gather
  apply List.ext_getElem
  · simp
  · intro k h1 h2
    simp only [List.getElem_map, List.getElem_range]
    exact getD_lt idx 0 k h2

theorem indexOf_map_range (n : Nat) (f g : Nat → Nat) (hfg : ∀ m < n, f (g m) = m)
    (hgf : ∀ k < n, g (f k) = k) (hg : ∀ m < n, g m < n) (m : Nat) (hm : m < n) :
    ((List.range n).map f).indexOf m = g m := by
  set l := (List.range n).map f with hl
  have hmem : m ∈ l := by
    rw [hl]
    refine List.mem_map.mpr ⟨g m, List.mem_range.mpr (hg m hm), hfg m hm⟩
  have hlen : l.length = n := by simp [hl]
  have hidx0 : l.indexOf m < l.length := List.indexOf_lt_length.mpr hmem
  have hidx : l.indexOf m < n := hlen ▸ hidx0
  have hval : l.get ⟨l.indexOf m, hidx0⟩ = m := List.getElem_indexOf hidx0
  have hfi : f (l.indexOf m) = m := by
    have hgm : l.get ⟨l.indexOf m, hidx0⟩ = f (l.indexOf m) := by
      simp only [hl, List.get_eq_getElem, List.getElem_map, List.getElem_range]
    rw [← hgm]
    exact hval
  have := hgf (l.indexOf m) hidx
  rw [hfi] at this
  omega

theorem invPerm_map_range (n : Nat) (f g : Nat → Nat) (hfg : ∀ m < n, f (g m) = m)
    (hgf : ∀ k < n, g (f k) = k) (hg : ∀ m < n, g m < n) :
    invPerm n ((List.range n).map f) = (List.range n).map g := by
  unfold invPerm
  refine List.map_congr_left (fun m hm => ?_)
  exact indexOf_map_range n f g hfg hgf hg m (List.mem_range.mp hm)

theorem length_of_mem_allIndices (shape : List Nat) (idx : List Nat)
    (h : idx ∈ allIndices shape) : idx.length = shape.length := by
  induction shape generalizing idx with
  | nil => simp [allIndices] at h; simp [h]
  | cons s rest ih =>
    simp only [allIndices, List.mem_flatMap, List.mem_map, List.mem_range] at h
    obtain ⟨i, _, idx', hidx', rfl⟩ := h
    simp [ih idx' hidx']

theorem flatMap_range_map {α : Type} (b a : Nat) (h : Nat → Nat → α) :
    (List.range b).flatMap (fun j => (List.range a).map (fun i => h i j)) =
      (List.range (b * a)).map (fun k => h (k % a) (k / a)) := by
  rcases Nat.eq_zero_or_pos a with rfl | ha
  · simp
  · induction b with
    | zero => simp
    | succ n ih =>
      rw [List.range_succ, List.flatMap_append, ih, Nat.succ_mul, List.range_add,
        List.map_append, List.map_map]
      congr 1
      simp only [List.flatMap_cons, List.flatMap_nil, List.append_nil]
      refine (List.map_congr_left (fun i hi => ?_)).symm
      have hia : i < a := List.mem_range.mp hi
      simp only [Function.comp]
      rw [mul_comm n a, Nat.mul_add_mod, Nat.mod_eq_of_lt hia,
        Nat.mul_add_div ha, Nat.div_eq_of_lt hia, Nat.add_zero]

theorem tf_lt (s p k : Nat) (h : k < s * p) : k / p + s * (k % p) < s * p := by
  have hs : 0 < s := by
    rcases Nat.eq_zero_or_pos s with rfl | hs
    · simp at h
    · exact hs
  have hp : 0 < p := by
    rcases Nat.eq_zero_or_pos p with rfl | hp
    · simp at h
    · exact hp
  have ha : k / p < s := (Nat.div_lt_iff_lt_mul hp).mpr h
  have hb : k % p < p := Nat.mod_lt _ hp
  calc k / p + s * (k % p) < s + s * (k % p) := by omega
    _ = s * (k % p + 1) := by ring
    _ ≤ s * p := Nat.mul_le_mul_left s hb

theorem tf_comp (s p k : Nat) (h : k < s * p) :
    (k / s + p * (k % s)) / p + s * ((k / s + p * (k % s)) % p) = k := by
  have hs : 0 < s := by
    rcases Nat.eq_zero_or_pos s with rfl | hs
    · simp at h
    · exact hs
  have hp : 0 < p := by
    rcases Nat.eq_zero_or_pos p with rfl | hp
    · simp at h
    · exact hp
  have ha : k / s < p := (Nat.div_lt_iff_lt_mul hs).mpr (by rwa [mul_comm s p] at h)
  have hb : k % s < s := Nat.mod_lt _ hs
  rw [add_comm (k / s) (p * (k % s)), Nat.mul_add_div hp, Nat.mul_add_mod,
    Nat.div_eq_of_lt ha, Nat.mod_eq_of_lt ha, Nat.add_zero]
  exact Nat.mod_add_div k s

/-- Two `np.transpose` calls whose axis orders are inverse permutations of
`range n` compose to the identity on arrays of rank `n`. -/
theorem transposeT_transposeT_of_inverse (T : Tensor) (n : Nat) (f g : Nat → Nat)
    (hlen : T.shape.length = n)
    (hfg : ∀ m < n, f (g m) = m) (hgf : ∀ k < n, g (f k) = k)
    (hf : ∀ m < n, f m < n) (hg : ∀ m < n, g m < n) :
    TensorEq (transposeT (transposeT T ((List.range n).map f)) ((List.range n).map g)) T := by
  have hcomp : gather ((List.range n).map g) ((List.range n).map f) = List.range n := by
    rw [gather, List.map_map]
    refine List.ext_getElem (by simp) ?_
    intro k h1 h2
    have hk : k < n := by simpa using h2
    simp only [List.getElem_map, List.getElem_range, Function.comp]
    rw [getD_map_range f 0 n (g k) (hg k hk)]
    exact hfg k hk
  have hmemg : ∀ a ∈ (List.range n).map g, a < ((List.range n).map f).length := by
    intro a ha
    obtain ⟨m, hm, rfl⟩ := List.mem_map.mp ha
    simpa using hg m (List.mem_range.mp hm)
  have hshape : (transposeT (transposeT T ((List.range n).map f)) ((List.range n).map g)).shape
      = T.shape := by
    show gather ((List.range n).map g) (gather ((List.range n).map f) T.shape) = T.shape
    rw [gather_gather _ _ T.shape hmemg, hcomp, gather_range n T.shape hlen]
  refine ⟨hshape, fun idx hidx => ?_⟩
  have hidxlen : idx.length = n := by
    rw [length_of_mem_allIndices _ idx hidx, hshape, hlen]
  show T.entries (gather (invPerm T.shape.length ((List.range n).map f))
      (gather (invPerm (gather ((List.range n).map f) T.shape).length
        ((List.range n).map g)) idx)) = T.entries idx
  have hl1 : (gather ((List.range n).map f) T.shape).length = n := by
    rw [gather_length]; simp
  rw [hl1, hlen]
  have hip : invPerm n ((List.range n).map f) = (List.range n).map g :=
    invPerm_map_range n f g hfg hgf hg
  have hiq : invPerm n ((List.range n).map g) = (List.range n).map f :=
    invPerm_map_range n g f hgf hfg hf
  rw [hip, hiq]
  rw [gather_gather _ _ idx hmemg, hcomp, gather_range n idx hidxlen]

theorem map_take_eq_range_map {α β : Type} (l : List α) (F : α → β) (n : Nat) (d : α)
    (h : n ≤ l.length) :
    (l.take n).map F = (List.range n).map (fun i => F (l.getD i d)) := by
  refine List.ext_getElem (by simp; omega) ?_
  intro k hk1 hk2
  have hkl : k < l.length := by simp at hk1; omega
  simp only [List.getElem_map, List.getElem_take, List.getElem_range]
  rw [getD_lt _ _ _ hkl]

/-- Evaluating `local_to_global` with zero skips on an array whose rank is a
multiple of `sites`. -/
theorem local_to_global_zero_skip (U : Tensor) (sites : Nat) (hs : sites ≠ 0)
    (hd : U.shape.length % sites = 0) :
    local_to_global U sites 0 0 = .ok (transposeT U
      ((List.range (U.shape.length / sites * sites)).map
        (fun k => 0 + U.shape.length / sites * (k % sites) + k / sites))) := by
  rw [local_to_global]
  simp only [Nat.add_zero, Nat.sub_zero]
  rw [if_neg hs, if_neg (by simp [hd])]
  rw [flatMap_range_map (U.shape.length / sites) sites
    (fun i j => 0 + U.shape.length / sites * i + j)]
  simp [mul_comm]

end Lemmas

/-- C2: for every array `T` and every positive `sites` with
`T.ndim % sites == 0`, converting to local form with `global_to_local` and
back with `local_to_global` (same `sites`, zero skips) succeeds and returns
an array equal to `T`: the two layout transforms are mutual inverses. -/
theorem toGlobal_toLocal_roundtrip (T : Tensor) (sites : Nat) (hs : 0 < sites)
    (hd : T.shape.length % sites = 0) :
    ∃ U V, global_to_local T sites = .ok U ∧ local_to_global U sites 0 0 = .ok V ∧
      TensorEq V T := by
  have hs0 : sites ≠ 0 := hs.ne'
  have hps : T.shape.length / sites * sites = T.shape.length :=
    Nat.div_mul_cancel (Nat.dvd_of_mod_eq_zero hd)
  set P := T.shape.length / sites with hP
  have hU : global_to_local T sites = .ok (transposeT T
      ((List.range (P * sites)).map (fun i => i / P + sites * (i % P)))) := by
    rw [global_to_local, if_neg hs0, if_neg (by simp [hd])]
  have hUlen : (transposeT T ((List.range (P * sites)).map
      (fun i => i / P + sites * (i % P)))).shape.length = P * sites := by
    simp [transposeT, gather_length]
  have hV := local_to_global_zero_skip
    (transposeT T ((List.range (P * sites)).map (fun i => i / P + sites * (i % P))))
    sites hs0 (by rw [hUlen]; exact Nat.mul_mod_left P sites)
  rw [hUlen, Nat.mul_div_cancel P hs] at hV
  refine ⟨_, _, hU, hV, ?_⟩
  refine transposeT_transposeT_of_inverse T (P * sites)
    (fun i => i / P + sites * (i % P)) (fun k => 0 + P * (k % sites) + k / sites)
    hps.symm ?_ ?_ ?_ ?_
  · intro m hm
    show (0 + P * (m % sites) + m / sites) / P +
      sites * ((0 + P * (m % sites) + m / sites) % P) = m
    have harr : 0 + P * (m % sites) + m / sites = m / sites + P * (m % sites) := by ring
    rw [harr]
    exact tf_comp sites P m (by rwa [mul_comm P sites] at hm)
  · intro k hk
    show 0 + P * ((k / P + sites * (k % P)) % sites) + (k / P + sites * (k % P)) / sites = k
    have hc := tf_comp P sites k hk
    rw [Nat.zero_add, Nat.add_comm]
    exact hc
  · intro m hm
    show m / P + sites * (m % P) < P * sites
    rw [mul_comm P sites]
    exact tf_lt sites P m (by rwa [mul_comm P sites] at hm)
  · intro m hm
    show 0 + P * (m % sites) + m / sites < P * sites
    have := tf_lt P sites m hm
    omega

/-- A concrete 6-axis test array with pairwise distinct entries. -/
def sampleT6 : Tensor :=
  ⟨[1, 2, 3, 4, 5, 6], fun idx => ⟨(ravel [1, 2, 3, 4, 5, 6] idx : ℚ), 0⟩⟩

/-- Witness for C2: the round trip at a concrete array of shape
`(1, 2, 3, 4, 5, 6)` with `sites = 3`. -/
theorem toGlobal_toLocal_roundtrip_witness :
    0 < 3 ∧ sampleT6.shape.length % 3 = 0 ∧
      (∃ U V, global_to_local sampleT6 3 = .ok U ∧ local_to_global U 3 0 0 = .ok V ∧
        TensorEq V sampleT6) :=
  ⟨by decide, by decide, toGlobal_toLocal_roundtrip sampleT6 3 (by decide) (by decide)⟩

/-- C3 counterexample: for input shape `(1, 2, 3, 4, 5, 6)` and `sites = 3`
(`plegs = 2`), the output shape is `(1, 4, 2, 5, 3, 6)`; for the axis at
original position `i = 1` the claimed rule predicts that the output extent at
position `⌊1/2⌋ + 3·(1 mod 2) = 3` equals the input extent `2`, but the
output extent there is `5`. -/
theorem global_to_local_claimed_rule_false :
    (global_to_local (zerosT [1, 2, 3, 4, 5, 6]) 3).map Tensor.shape =
      .ok [1, 4, 2, 5, 3, 6] ∧
    ([1, 4, 2, 5, 3, 6] : List Nat).getD (1 / 2 + 3 * (1 % 2)) 0 ≠
      ([1, 2, 3, 4, 5, 6] : List Nat).getD 1 0 :=
  ⟨by rfl, by decide⟩

/-- C3 amended: `global_to_local` moves the input axis at position `j` to
output position `(j mod sites)·plegs + ⌊j/sites⌋`; equivalently the output
extent at position `i` equals the input extent at position
`⌊i/plegs⌋ + sites·(i mod plegs)` — the claim stated the correspondence with
the two directions interchanged. -/
theorem global_to_local_axis_positions (T : Tensor) (sites : Nat) (hs : 0 < sites)
    (hd : T.shape.length % sites = 0) :
    ∃ U, global_to_local T sites = .ok U ∧
      (∀ i < T.shape.length, U.shape.getD i 0 =
        T.shape.getD (i / (T.shape.length / sites) +
          sites * (i % (T.shape.length / sites))) 0) ∧
      (∀ j < T.shape.length,
        U.shape.getD ((j % sites) * (T.shape.length / sites) + j / sites) 0 =
          T.shape.getD j 0) := by
  have hs0 : sites ≠ 0 := hs.ne'
  have hps : T.shape.length / sites * sites = T.shape.length :=
    Nat.div_mul_cancel (Nat.dvd_of_mod_eq_zero hd)
  set P := T.shape.length / sites with hP
  have hU : global_to_local T sites = .ok (transposeT T
      ((List.range (P * sites)).map (fun i => i / P + sites * (i % P)))) := by
    rw [global_to_local, if_neg hs0, if_neg (by simp [hd])]
  refine ⟨_, hU, ?_, ?_⟩
  · intro i hi
    have hi2 : i < P * sites := hps ▸ hi
    show (gather ((List.range (P * sites)).map (fun i => i / P + sites * (i % P)))
      T.shape).getD i 0 = _
    rw [gather_getD _ _ i (by simpa using hi2), getD_map_range _ _ _ _ hi2]
  · intro j hj
    have hj2 : j < P * sites := hps ▸ hj
    have hpos : (j % sites) * P + j / sites = j / sites + P * (j % sites) := by ring
    have hposlt : j / sites + P * (j % sites) < P * sites := tf_lt P sites j hj2
    show (gather ((List.range (P * sites)).map (fun i => i / P + sites * (i % P)))
      T.shape).getD ((j % sites) * P + j / sites) 0 = _
    rw [hpos, gather_getD _ _ _ (by simpa using hposlt),
      getD_map_range _ _ _ _ hposlt]
    congr 1
    exact tf_comp sites P j (by rwa [mul_comm P sites] at hj2)

/-- Witness for the amended C3 at shape `(1, 2, 3, 4, 5, 6)`, `sites = 3`. -/
theorem global_to_local_axis_positions_witness :
    0 < 3 ∧ sampleT6.shape.length % 3 = 0 ∧
      (∃ U, global_to_local sampleT6 3 = .ok U ∧
        (∀ i < sampleT6.shape.length, U.shape.getD i 0 =
          sampleT6.shape.getD (i / (sampleT6.shape.length / 3) +
            3 * (i % (sampleT6.shape.length / 3))) 0) ∧
        (∀ j < sampleT6.shape.length,
          U.shape.getD ((j % 3) * (sampleT6.shape.length / 3) + j / 3) 0 =
            sampleT6.shape.getD j 0)) :=
  ⟨by decide, by decide, global_to_local_axis_positions sampleT6 3 (by decide) (by decide)⟩

section PermBlockLemmas

theorem getD_take {α : Type} (l : List α) (n i : Nat) (d : α) (h : i < n) :
    (l.take n).getD i d = l.getD i d := by
  simp only [List.getD, List.get?_eq_getElem?]
  rw [List.getElem?_take, if_pos h]

theorem getD_drop {α : Type} (l : List α) (n i : Nat) (d : α) :
    (l.drop n).getD i d = l.getD (n + i) d := by
  simp only [List.getD, List.get?_eq_getElem?]
  rw [List.getElem?_drop]

theorem getD_indexOf_self (O : List Nat) (m : Nat) (hm : m ∈ O) :
    O.getD (O.indexOf m) 0 = m := by
  rw [getD_lt _ _ _ (List.indexOf_lt_length.mpr hm)]
  exact List.getElem_indexOf _

theorem indexOf_getD_self (O : List Nat) (hnd : O.Nodup) (k : Nat) (hk : k < O.length) :
    O.indexOf (O.getD k 0) = k := by
  rw [getD_lt _ _ _ hk]
  exact List.indexOf_getElem hnd k hk

theorem getD_mem (O : List Nat) (k : Nat) (hk : k < O.length) : O.getD k 0 ∈ O := by
  rw [getD_lt _ _ _ hk]
  exact List.getElem_mem _

theorem invPerm_length (n : Nat) (O : List Nat) : (invPerm n O).length = n := by
  simp [invPerm]

theorem invPerm_getD (n : Nat) (O : List Nat) (m : Nat) (hm : m < n) :
    (invPerm n O).getD m 0 = O.indexOf m :=
  getD_map_range _ _ _ _ hm

theorem invPerm_invPerm (r : Nat) (O : List Nat) (hlen : O.length = r) (hnd : O.Nodup)
    (hmem : ∀ x ∈ O, x < r) (hsurj : ∀ k < r, k ∈ O) :
    invPerm r (invPerm r O) = O := by
  have h1 : invPerm r (invPerm r O) = (List.range r).map (fun k => O.getD k 0) := by
    unfold invPerm
    refine List.map_congr_left (fun m hm => ?_)
    exact indexOf_map_range r (fun x => O.indexOf x) (fun k => O.getD k 0)
      (fun m2 hm2 => indexOf_getD_self O hnd m2 (hlen ▸ hm2))
      (fun k hk => getD_indexOf_self O k (hsurj k hk))
      (fun m2 hm2 => hmem _ (getD_mem O m2 (hlen ▸ hm2)))
      m (List.mem_range.mp hm)
  rw [h1]
  refine List.ext_getElem (by simp [hlen]) ?_
  intro k h1' h2'
  simp only [List.getElem_map, List.getElem_range]
  exact getD_lt O 0 k h2'

theorem gather_invPerm_self (r : Nat) (O : List Nat) (hlen : O.length = r)
    (hsurj : ∀ k < r, k ∈ O) :
    gather (invPerm r O) O = List.range r := by
  refine List.ext_getElem (by simp [gather, invPerm]) ?_
  intro k h1 h2
  have hk : k < r := by simpa using h2
  simp only [gather, invPerm, List.getElem_map, List.getElem_range]
  rw [getD_lt _ _ _ (hlen ▸ List.indexOf_lt_length.mpr (hsurj k hk))]
  exact List.getElem_indexOf _

theorem mem_allIndices_iff (shape idx : List Nat) :
    idx ∈ allIndices shape ↔ idx.length = shape.length ∧
      ∀ m < shape.length, idx.getD m 0 < shape.getD m 0 := by
  induction shape generalizing idx with
  | nil =>
    simp only [allIndices, List.mem_singleton, List.length_nil]
    constructor
    · rintro rfl
      exact ⟨rfl, fun m hm => absurd hm (Nat.not_lt_zero m)⟩
    · rintro ⟨h, _⟩
      exact List.length_eq_zero.mp h
  | cons s rest ih =>
    cases idx with
    | nil =>
      simp only [allIndices, List.mem_flatMap, List.mem_map, List.mem_range]
      constructor
      · rintro ⟨i, _, idx', _, h⟩
        exact absurd h (by simp)
      · rintro ⟨h, _⟩
        simp at h
    | cons a as =>
      simp only [allIndices, List.mem_flatMap, List.mem_map, List.mem_range]
      constructor
      · rintro ⟨i, hi, idx', hidx', heq⟩
        injection heq with ha hb2
        subst ha
        subst hb2
        obtain ⟨hlen, hb⟩ := (ih idx').mp hidx'
        refine ⟨by simp [hlen], fun m hm => ?_⟩
        cases m with
        | zero => exact hi
        | succ m' =>
          show idx'.getD m' 0 < rest.getD m' 0
          exact hb m' (by simpa using hm)
      · rintro ⟨hlen, hb⟩
        refine ⟨a, hb 0 (Nat.succ_pos _), as,
          (ih as).mpr ⟨by simpa using hlen, fun m hm => ?_⟩, rfl⟩
        exact hb (m + 1) (by simp only [List.length_cons]; omega)

/-- The permutation facts about `axes_order = axes ++ [i for i not in axes]`. -/
theorem axes_order_facts (axesN : List Nat) (r : Nat) (hnd : axesN.Nodup)
    (hlt : ∀ m ∈ axesN, m < r) :
    (axesN ++ (List.range r).filter (fun i => !(axesN.contains i))).Nodup ∧
    (axesN ++ (List.range r).filter (fun i => !(axesN.contains i))).length = r ∧
    (∀ x ∈ axesN ++ (List.range r).filter (fun i => !(axesN.contains i)), x < r) ∧
    (∀ k < r, k ∈ axesN ++ (List.range r).filter (fun i => !(axesN.contains i))) ∧
    axesN.length ≤ r ∧
    (∀ j < axesN.length,
      (axesN ++ (List.range r).filter (fun i => !(axesN.contains i))).getD j 0 =
        axesN.getD j 0) ∧
    (∀ j, axesN.length ≤ j → j < r →
      (axesN ++ (List.range r).filter (fun i => !(axesN.contains i))).getD j 0 ∉ axesN) := by
  set F := (List.range r).filter (fun i => !(axesN.contains i)) with hF
  have hFmem : ∀ x, x ∈ F ↔ x < r ∧ x ∉ axesN := by
    intro x
    rw [hF, List.mem_filter]
    simp [List.elem_iff]
  have hOnd : (axesN ++ F).Nodup := by
    refine List.Nodup.append hnd ?_ ?_
    · exact List.Nodup.filter _ (List.nodup_range r)
    · intro x hx hxF
      exact ((hFmem x).mp hxF).2 hx
  have hOmem : ∀ x, x ∈ axesN ++ F ↔ x < r := by
    intro x
    rw [List.mem_append]
    constructor
    · rintro (h | h)
      · exact hlt x h
      · exact ((hFmem x).mp h).1
    · intro h
      by_cases hx : x ∈ axesN
      · exact Or.inl hx
      · exact Or.inr ((hFmem x).mpr ⟨h, hx⟩)
  have hOlen : (axesN ++ F).length = r := by
    have hperm : List.Perm (axesN ++ F) (List.range r) := by
      rw [List.perm_ext_iff_of_nodup hOnd (List.nodup_range r)]
      intro x
      rw [hOmem x, List.mem_range]
    rw [hperm.length_eq, List.length_range]
  refine ⟨hOnd, hOlen, fun x hx => (hOmem x).mp hx, fun k hk => (hOmem k).mpr hk, ?_, ?_, ?_⟩
  · have := List.length_append axesN F
    omega
  · intro j hj
    exact List.getD_append _ _ _ _ hj
  · intro j hjge hjlt
    rw [List.getD_append_right _ _ _ _ hjge]
    intro hmem
    have hlenF : j - axesN.length < F.length := by
      have := List.length_append axesN F
      omega
    exact ((hFmem _).mp (getD_mem F _ hlenF)).2 hmem

/-- The running `startpos` of `block_diag`'s loop after `k` summands have
been placed. -/
def stepStarts : List Tensor → List Nat → Nat → List Nat
  | _, starts, 0 => starts
  | [], starts, _ + 1 => starts
  | a :: rest, starts, k + 1 =>
      stepStarts rest
        ((List.range starts.length).map (fun m => starts.getD m 0 + a.shape.getD m 0)) k

theorem stepStarts_length (ts : List Tensor) (starts : List Nat) (k : Nat) :
    (stepStarts ts starts k).length = starts.length := by
  induction k generalizing ts starts with
  | zero => cases ts <;> rfl
  | succ n ih =>
    cases ts with
    | nil => rfl
    | cons a rest =>
      show (stepStarts rest ((List.range starts.length).map
        (fun m => starts.getD m 0 + a.shape.getD m 0)) n).length = starts.length
      rw [ih]
      simp

theorem stepStarts_getD (ts : List Tensor) (starts : List Nat) (k m : Nat)
    (hm : m < starts.length) (hk : k ≤ ts.length) :
    (stepStarts ts starts k).getD m 0 = starts.getD m 0 +
      ∑ i in Finset.range k, (ts.getD i default).shape.getD m 0 := by
  induction k generalizing ts starts with
  | zero => cases ts <;> simp [stepStarts]
  | succ n ih =>
    cases ts with
    | nil => simp at hk
    | cons a rest =>
      show (stepStarts rest ((List.range starts.length).map
        (fun m => starts.getD m 0 + a.shape.getD m 0)) n).getD m 0 = _
      rw [ih rest _ (by simpa using hm) (by simpa using hk)]
      rw [getD_map_range _ _ _ _ hm]
      rw [Finset.sum_range_succ']
      have hshift : ∀ i : Nat, ((a :: rest).getD (i + 1) default) = rest.getD i default :=
        fun i => rfl
      have h0 : ((a :: rest).getD 0 default) = a := rfl
      simp only [hshift, h0]
      ring

theorem bdLoop_formula (ts : List Tensor) (res : Tensor) (starts : List Nat)
    (hok : ∀ a ∈ ts, broadcastOk res.shape a.shape starts.length = true) :
    ∃ R, bdLoop ts res starts = .ok R ∧ R.shape = res.shape ∧
      ∀ idx, R.entries idx = res.entries idx +
        ∑ k in Finset.range ts.length,
          (if inBlock (stepStarts ts starts k) (ts.getD k default).shape idx = true
            then (ts.getD k default).entries
              (blockLocalIdx (stepStarts ts starts k) (ts.getD k default).shape idx)
            else 0) := by
  induction ts generalizing res starts with
  | nil => exact ⟨res, rfl, rfl, fun idx => by simp⟩
  | cons a rest ih =>
    have hoka := hok a (List.mem_cons_self a rest)
    obtain ⟨R, hR, hshape, hform⟩ := ih (sliceAdd res starts a)
      ((List.range starts.length).map (fun m => starts.getD m 0 + a.shape.getD m 0))
      (fun a' ha' => by
        have := hok a' (List.mem_cons_of_mem a ha')
        simpa using this)
    refine ⟨R, ?_, hshape, ?_⟩
    · show (if broadcastOk res.shape a.shape starts.length = true
          then bdLoop rest (sliceAdd res starts a)
            ((List.range starts.length).map (fun m => starts.getD m 0 + a.shape.getD m 0))
          else .error .valueError) = .ok R
      rw [if_pos hoka]
      exact hR
    · intro idx
      rw [hform idx]
      show res.entries idx +
          (if inBlock starts a.shape idx = true
            then a.entries (blockLocalIdx starts a.shape idx) else 0) + _ = _
      simp only [List.length_cons]
      rw [Finset.sum_range_succ']
      have hterm : ∀ k, ((a :: rest).getD (k + 1) default) = rest.getD k default :=
        fun k => rfl
      have hstep : ∀ k, stepStarts (a :: rest) starts (k + 1) =
          stepStarts rest ((List.range starts.length).map
            (fun m => starts.getD m 0 + a.shape.getD m 0)) k :=
        fun k => rfl
      simp only [hterm, hstep]
      have hzero : stepStarts (a :: rest) starts 0 = starts := rfl
      rw [hzero]
      have h0 : ((a :: rest).getD 0 default) = a := rfl
      rw [h0]
      ring

theorem bdLoop_ok_iff (ts : List Tensor) (res : Tensor) (starts : List Nat) :
    (∃ R, bdLoop ts res starts = .ok R) ↔
      ∀ a ∈ ts, broadcastOk res.shape a.shape starts.length = true := by
  induction ts generalizing res starts with
  | nil =>
    simp only [List.not_mem_nil, false_implies, implies_true, iff_true]
    exact ⟨res, rfl⟩
  | cons a rest ih =>
    by_cases h : broadcastOk res.shape a.shape starts.length = true
    · have hred : bdLoop (a :: rest) res starts = bdLoop rest (sliceAdd res starts a)
          ((List.range starts.length).map (fun m => starts.getD m 0 + a.shape.getD m 0)) := by
        show (if broadcastOk res.shape a.shape starts.length = true then _ else _) = _
        rw [if_pos h]
      rw [hred]
      rw [ih (sliceAdd res starts a) _]
      constructor
      · intro hall
        intro a' ha'
        rcases List.mem_cons.mp ha' with rfl | hmem
        · exact h
        · have := hall a' hmem
          simpa using this
      · intro hall a' ha'
        have := hall a' (List.mem_cons_of_mem a ha')
        simpa using this
    · have hred : bdLoop (a :: rest) res starts = .error .valueError := by
        show (if broadcastOk res.shape a.shape starts.length = true then _ else _) = _
        rw [if_neg h]
      rw [hred]
      constructor
      · rintro ⟨R, hR⟩
        exact absurd hR (by simp)
      · intro hall
        exact absurd (hall a (List.mem_cons_self a rest)) h

theorem exists_map_ok {ε α β : Type} (e : Except ε α) (f : α → β) :
    (∃ b, e.map f = .ok b) ↔ ∃ a, e = .ok a := by
  cases e <;> simp [Except.map]

end PermBlockLemmas

section GramLemmas

theorem ravel_unravel (shape : List Nat) (k : Nat) :
    ravel shape (unravel shape k) = k % shape.prod := by
  induction shape generalizing k with
  | nil => simp [ravel, unravel, Nat.mod_one]
  | cons s rest ih =>
    simp only [unravel, ravel, List.prod_cons]
    rw [ih k, mul_comm s rest.prod, Nat.mod_mul]
    ring

theorem matMul_conjTrans_apply {D : Nat} (M : CMat D) (i j : Fin D) :
    matMul (conjTrans M) M i j = ∑ k, (M k i).conj * M k j := rfl

theorem gram_hermitian {D : Nat} (M : CMat D) :
    conjTrans (matMul (conjTrans M) M) = matMul (conjTrans M) M := by
  funext i j
  show (∑ k, (M k j).conj * M k i).conj = ∑ k, (M k i).conj * M k j
  rw [Cq.conj_sum]
  refine Finset.sum_congr rfl (fun k _ => ?_)
  rw [Cq.conj_mul]
  ext <;> simp <;> ring

theorem gram_trace_re {D : Nat} (M : CMat D) :
    (traceM (matMul (conjTrans M) M)).re = ∑ i, ∑ k, (M k i).normSq := by
  rw [traceM, Cq.re_sum]
  refine Finset.sum_congr rfl (fun i _ => ?_)
  rw [matMul_conjTrans_apply, Cq.re_sum]
  refine Finset.sum_congr rfl (fun k _ => ?_)
  rw [Cq.conj_mul_self]

theorem gram_trace_im {D : Nat} (M : CMat D) :
    (traceM (matMul (conjTrans M) M)).im = 0 := by
  rw [traceM, Cq.im_sum]
  refine Finset.sum_eq_zero (fun i _ => ?_)
  rw [matMul_conjTrans_apply, Cq.im_sum]
  refine Finset.sum_eq_zero (fun k _ => ?_)
  rw [Cq.conj_mul_self]

theorem gram_qform {D : Nat} (M : CMat D) (v : Fin D → Cq) :
    QForm (matMul (conjTrans M) M) v = ∑ k, (mulVec M v k).conj * mulVec M v k := by
  unfold QForm
  calc ∑ i, ∑ j, (v i).conj * matMul (conjTrans M) M i j * v j
      = ∑ i, ∑ j, ∑ k, (v i).conj * ((M k i).conj * M k j) * v j := by
        refine Finset.sum_congr rfl (fun i _ => Finset.sum_congr rfl (fun j _ => ?_))
        rw [matMul_conjTrans_apply, Finset.mul_sum, Finset.sum_mul]
    _ = ∑ i, ∑ k, ∑ j, (v i).conj * ((M k i).conj * M k j) * v j := by
        refine Finset.sum_congr rfl (fun i _ => ?_)
        rw [Finset.sum_comm]
    _ = ∑ k, ∑ i, ∑ j, (v i).conj * ((M k i).conj * M k j) * v j := by
        rw [Finset.sum_comm]
    _ = ∑ k, (mulVec M v k).conj * mulVec M v k := by
        refine Finset.sum_congr rfl (fun k _ => ?_)
        rw [mulVec, Cq.conj_sum, Finset.sum_mul_sum]
        refine Finset.sum_congr rfl (fun i _ => Finset.sum_congr rfl (fun j _ => ?_))
        rw [Cq.conj_mul]
        ring

theorem traceM_matDiv {D : Nat} (A : CMat D) (c : Cq) :
    traceM (matDiv A c) = (traceM A).div c := by
  unfold traceM matDiv
  rw [Cq.sum_div]

theorem Cq.mul_div (a b c : Cq) : a * b.div c = (a * b).div c := by
  rw [mul_comm, Cq.div_mul, mul_comm]

theorem QForm_matDiv {D : Nat} (A : CMat D) (c : Cq) (v : Fin D → Cq) :
    QForm (matDiv A c) v = (QForm A v).div c := by
  unfold QForm matDiv
  rw [Cq.sum_div]
  refine Finset.sum_congr rfl (fun i _ => ?_)
  rw [Cq.sum_div]
  refine Finset.sum_congr rfl (fun j _ => ?_)
  rw [Cq.mul_div, Cq.div_mul]

theorem conjTrans_matDiv {D : Nat} (A : CMat D) (c : Cq) :
    conjTrans (matDiv A c) = matDiv (conjTrans A) c.conj := by
  funext i j
  exact Cq.conj_div _ _

theorem mulVec_matDiv {D : Nat} (A : CMat D) (c : Cq) (v : Fin D → Cq) (i : Fin D) :
    mulVec (matDiv A c) v i = (mulVec A v i).div c := by
  unfold mulVec matDiv
  rw [Cq.sum_div]
  exact Finset.sum_congr rfl (fun j _ => Cq.div_mul _ _ _)

theorem QForm_eq_sum_mulVec {D : Nat} (A : CMat D) (v : Fin D → Cq) :
    QForm A v = ∑ i, (v i).conj * mulVec A v i := by
  unfold QForm mulVec
  refine Finset.sum_congr rfl (fun i _ => ?_)
  rw [Finset.mul_sum]
  exact Finset.sum_congr rfl (fun j _ => mul_assoc _ _ _)

theorem matView_random_state (sites ldim : Nat) (g : Nat → ℚ)
    (i j : Fin (ldim ^ sites)) :
    matView (random_state sites ldim g) (ldim ^ sites) i.val j.val =
      random_state_rho sites ldim g i j := by
  have hD : 0 < ldim ^ sites := i.pos
  have hprod : (List.replicate (2 * sites) ldim).prod = ldim ^ sites * ldim ^ sites := by
    rw [List.prod_replicate, two_mul, pow_add]
  have hjlt : j.val < ldim ^ sites := j.isLt
  have hlt : i.val * ldim ^ sites + j.val < ldim ^ sites * ldim ^ sites := by
    have h1 : i.val + 1 ≤ ldim ^ sites := i.isLt
    calc i.val * ldim ^ sites + j.val < i.val * ldim ^ sites + ldim ^ sites := by omega
      _ = (i.val + 1) * ldim ^ sites := by ring
      _ ≤ ldim ^ sites * ldim ^ sites := Nat.mul_le_mul_right _ h1
  show (matToTensor (random_state_rho sites ldim g)).entries
    (unravel [ldim ^ sites, ldim ^ sites] (ravel (List.replicate (2 * sites) ldim)
      (unravel (List.replicate (2 * sites) ldim) (i.val * ldim ^ sites + j.val)))) =
    random_state_rho sites ldim g i j
  rw [ravel_unravel, hprod, Nat.mod_eq_of_lt hlt]
  have huv : unravel [ldim ^ sites, ldim ^ sites] (i.val * ldim ^ sites + j.val) =
      [i.val, j.val] := by
    simp only [unravel, List.prod_cons, List.prod_nil, mul_one, Nat.div_one]
    congr 1
    · rw [mul_comm i.val (ldim ^ sites), Nat.mul_add_div hD, Nat.div_eq_of_lt hjlt,
        Nat.add_zero, Nat.mod_eq_of_lt i.isLt]
    · congr 1
      rw [mul_comm i.val (ldim ^ sites), Nat.mul_add_mod, Nat.mod_eq_of_lt hjlt]
  rw [huv]
  show (if h : i.val < ldim ^ sites ∧ j.val < ldim ^ sites then
      random_state_rho sites ldim g ⟨i.val, h.1⟩ ⟨j.val, h.2⟩ else 0) =
    random_state_rho sites ldim g i j
  rw [dif_pos (⟨i.isLt, j.isLt⟩ : i.val < ldim ^ sites ∧ j.val < ldim ^ sites)]

end GramLemmas

/-- C10: `partial_trace` called with the empty trace-out list returns the
input array itself, unchanged and without raising, for every array —
including arrays of odd rank, since the two-legs-per-site evenness check is
only reached for a non-empty list. -/
theorem partial_trace_nil_is_identity (T : Tensor) : partial_trace T [] = .ok T := by
  rw [partial_trace]

/-- The per-site leg extents a well-formed `ldim` argument prescribes for
site `i`: a scalar or flat sequence prescribes the same legs on every site,
a nested sequence prescribes its `i`-th entry. -/
def legsOf : LegSpec → Nat → List Nat
  | .scalar d, _ => [d]
  | .flat ds, _ => ds
  | .nested dss, i => dss.getD i []

/-- The `ldim` arguments `_generate` accepts without raising (for
`sites ≥ 2`): any scalar, a non-empty flat sequence, and a nested sequence
with at least one entry per site boundary handled below; for the shape
theorem we take the documented case of exactly `sites` entries. -/
def ValidSpec (sites : Nat) : LegSpec → Prop
  | .scalar _ => True
  | .flat ds => ds ≠ []
  | .nested dss => dss.length = sites

/-- C4 counterexample: for `sites = 2` and the flat length-`sites` sequence
`(2, 3)` with `bdim = 4`, the claim predicts one physical leg per site
(local shapes `(1, 2, 4)` and `(4, 3, 1)`); the code instead puts the whole
sequence on every site, producing shapes `(1, 2, 3, 4)` and `(4, 2, 3, 1)` —
two physical legs per site. -/
theorem generate_flat_spec_not_per_site :
    (_generate 2 (.flat [2, 3]) 4 zerosT).map (List.map Tensor.shape) =
      .ok [[1, 2, 3, 4], [4, 2, 3, 1]] ∧
    ([1, 2, 3, 4] : List Nat) ≠ [1, 2, 4] :=
  ⟨by rfl, by decide⟩

/-- C4 amended: a flat sequence of scalars is interpreted as the common
per-site tuple of physical-leg sizes: every site receives one leg per
element of the sequence, with those extents, identical across sites (the
sizes do not vary from site to site and the sequence's length is unrelated
to `sites`). -/
theorem generate_flat_same_legs_every_site (sites d : Nat) (ds : List Nat)
    (bdim : Nat) (func : List Nat → Tensor) (h2 : 2 ≤ sites)
    (hf : ∀ s, (func s).shape = s) :
    (_generate sites (.flat (d :: ds)) bdim func).map (List.map Tensor.shape) =
      .ok ([1 :: (d :: ds) ++ [bdim]] ++
        (List.range (sites - 2)).map (fun _ => bdim :: (d :: ds) ++ [bdim]) ++
        [bdim :: (d :: ds) ++ [1]]) := by
  rw [_generate, if_neg (by omega : ¬ sites ≤ 1)]
  simp [Except.map, hf, List.map_append]

/-- Witness for the amended C4: `sites = 3`, flat sequence `(2, 3)`,
`bdim = 4`, `np.zeros` as the element factory. -/
theorem generate_flat_same_legs_every_site_witness :
    2 ≤ 3 ∧ (∀ s, (zerosT s).shape = s) ∧
      (_generate 3 (.flat [2, 3]) 4 zerosT).map (List.map Tensor.shape) =
        .ok ([1 :: [2, 3] ++ [4]] ++
          (List.range (3 - 2)).map (fun _ => 4 :: [2, 3] ++ [4]) ++
          [4 :: [2, 3] ++ [1]]) :=
  ⟨by decide, fun _ => rfl,
    generate_flat_same_legs_every_site 3 2 [3] 4 zerosT (by decide) (fun _ => rfl)⟩

/-- C7 counterexample: `_generate` performs no length validation on a
per-site `ldim` sequence — with `sites = 4` and a nested sequence of length
5, the claim demands a `ConfigurationError`, but the code succeeds, silently
ignoring the surplus entry. -/
theorem generate_no_length_check :
    (_generate 4 (.nested [[2], [2], [2], [2], [2]]) 3 zerosT).map (List.map Tensor.shape) =
      .ok [[1, 2, 3], [3, 2, 3], [3, 2, 3], [3, 2, 1]] := by rfl

/-- C7 amended: `_generate` fails exactly when `sites < 2` (the
`assert sites > 1`, an `AssertionError`), when `ldim` is an empty sequence
(`ldim[0]` raises `IndexError`), or when a nested `ldim` has fewer than
`sites` entries (the iterator is exhausted, `StopIteration`).  A nested
`ldim` with more than `sites` entries and a flat `ldim` of any non-zero
length are accepted without any length check. -/
theorem generate_failure_characterization (sites : Nat) (spec : LegSpec) (bdim : Nat)
    (func : List Nat → Tensor) :
    (∃ e, _generate sites spec bdim func = .error e) ↔
      sites ≤ 1 ∨ spec = .flat [] ∨ (∃ dss, spec = .nested dss ∧ dss.length < sites) := by
  by_cases h1 : sites ≤ 1
  · simp only [_generate, if_pos h1]
    exact ⟨fun _ => Or.inl h1, fun _ => ⟨.assertionError, rfl⟩⟩
  · rw [_generate, if_neg h1]
    cases spec with
    | scalar d => simp [h1]
    | flat ds =>
      cases ds with
      | nil => simp
      | cons d ds => simp [h1]
    | nested dss =>
      cases dss with
      | nil =>
        simp only [h1, false_or]
        constructor
        · intro _
          exact Or.inr ⟨[], rfl, by simp; omega⟩
        · intro _
          exact ⟨.indexError, rfl⟩
      | cons l0 rest =>
        rcases hdrop : rest.drop (sites - 2) with _ | ⟨lr, more⟩
        · have hlen : rest.length ≤ sites - 2 := by
            by_contra hcon
            have := List.drop_eq_nil_iff.mp hdrop
            omega
          simp only [hdrop, h1, false_or]
          constructor
          · intro _
            exact Or.inr ⟨l0 :: rest, rfl, by simp; omega⟩
          · intro _
            exact ⟨.stopIteration, rfl⟩
        · have hlen : sites - 2 < rest.length := by
            by_contra hcon
            rw [List.drop_eq_nil_of_le (by omega)] at hdrop
            exact List.noConfusion hdrop
          simp only [hdrop, h1, false_or]
          constructor
          · rintro ⟨e, he⟩
            exact absurd he (by simp)
          · rintro (h | ⟨dss, heq, hlt⟩)
            · exact absurd h (by simp)
            · injection heq with h2
              subst h2
              simp only [List.length_cons] at hlt
              omega

/-- C8: for `sites ≥ 2`, a valid `ldim` and any bond dimension, the chain's
local tensors have shapes `(1, legs 0…, bdim)`, `(bdim, legs i…, bdim)` for
the interior, and `(bdim, legs (sites-1)…, 1)`: boundary bonds are 1 and all
interior bonds equal the requested bond dimension. -/
theorem generate_shapes (sites : Nat) (spec : LegSpec) (bdim : Nat)
    (func : List Nat → Tensor) (h2 : 2 ≤ sites) (hv : ValidSpec sites spec)
    (hf : ∀ s, (func s).shape = s) :
    (_generate sites spec bdim func).map (List.map Tensor.shape) =
      .ok ([1 :: legsOf spec 0 ++ [bdim]] ++
        (List.range (sites - 2)).map (fun i => bdim :: legsOf spec (i + 1) ++ [bdim]) ++
        [bdim :: legsOf spec (sites - 1) ++ [1]]) := by
  rw [_generate, if_neg (by omega : ¬ sites ≤ 1)]
  cases spec with
  | scalar dd => simp [Except.map, hf, legsOf]
  | flat ds =>
    cases ds with
    | nil => exact absurd rfl hv
    | cons dd ds => simp [Except.map, hf, legsOf]
  | nested dss =>
    cases dss with
    | nil => exact absurd hv (by simp [ValidSpec]; omega)
    | cons l0 rest =>
      have hrest : rest.length = sites - 1 := by
        have : (l0 :: rest).length = sites := hv
        simp at this
        omega
      have hlt : sites - 2 < rest.length := by omega
      have hs12 : sites - 2 + 1 = sites - 1 := by omega
      have hdrop : rest.drop (sites - 2) =
          rest[sites - 2] :: rest.drop (sites - 1) := by
        rw [List.drop_eq_getElem_cons hlt, hs12]
      have hdrop2 : rest.drop (sites - 1) = [] :=
        List.drop_eq_nil_of_le (by omega)
      have hlegi : ∀ i, legsOf (.nested (l0 :: rest)) (i + 1) = rest.getD i [] :=
        fun _ => rfl
      have hlegN : legsOf (.nested (l0 :: rest)) (sites - 1) = rest.getD (sites - 2) [] := by
        rw [← hs12]
        exact hlegi _
      have hget : rest[sites - 2] = rest.getD (sites - 2) [] := (getD_lt _ _ _ hlt).symm
      simp only [hdrop, hdrop2, Except.map, List.map_append, List.map_cons, List.map_nil,
        List.map_map, Function.comp, hf, hlegi, hlegN, hget]
      rw [map_take_eq_range_map rest _ (sites - 2) [] (by omega)]
      simp [legsOf, hf, Function.comp]

/-- Witness for C8: `sites = 4`, nested spec `((1,), (2, 3), (4, 5), (1,))`,
`bdim = 10` — the doctest example of `random_mpa`. -/
theorem generate_shapes_witness :
    2 ≤ 4 ∧ ValidSpec 4 (.nested [[1], [2, 3], [4, 5], [1]]) ∧ (∀ s, (zerosT s).shape = s) ∧
      (_generate 4 (.nested [[1], [2, 3], [4, 5], [1]]) 10 zerosT).map (List.map Tensor.shape) =
        .ok ([1 :: legsOf (.nested [[1], [2, 3], [4, 5], [1]]) 0 ++ [10]] ++
          (List.range (4 - 2)).map
            (fun i => 10 :: legsOf (.nested [[1], [2, 3], [4, 5], [1]]) (i + 1) ++ [10]) ++
          [10 :: legsOf (.nested [[1], [2, 3], [4, 5], [1]]) (4 - 1) ++ [1]]) :=
  ⟨by decide, by simp [ValidSpec], fun _ => rfl,
    generate_shapes 4 (.nested [[1], [2, 3], [4, 5], [1]]) 10 zerosT (by decide)
      (by simp [ValidSpec]) (fun _ => rfl)⟩

/-- C6 counterexample: the summands `(2, 2)` and `(2, 1)` differ on axis 1,
which is not listed in `axes = (0,)`, so the claim demands a `ShapeMismatch`
failure; instead `block_diag` succeeds — numpy silently broadcasts the
extent-1 axis — and in the failing cases the error is a broadcast
`ValueError` raised during the loop, after the output was allocated. -/
theorem block_diag_no_shape_precondition :
    (∃ T, block_diag [⟨[2, 2], fun _ => 1⟩, ⟨[2, 1], fun _ => 1⟩] [0] = .ok T) ∧
    ([2, 2] : List Nat).getD 1 0 ≠ ([2, 1] : List Nat).getD 1 0 ∧ (1 : Int) ∉ [(0 : Int)] :=
  ⟨⟨_, rfl⟩, by decide, by decide⟩

/-- C6 amended: `block_diag` performs no precondition check; it fails (with
numpy's broadcast `ValueError`, raised inside the placement loop after the
output array was allocated) exactly when some summand's extent on a
non-listed axis differs from the first summand's and is not 1; extent-1
mismatches are silently broadcast instead of rejected, and inputs whose
non-listed extents all agree never fail. -/
theorem block_diag_error_characterization (s0 : Tensor) (rest : List Tensor)
    (axes : List Int) (r : Nat) (hr0 : s0.shape.length = r)
    (hnd : (resolveAxes axes r).Nodup)
    (haxlt : ∀ m ∈ resolveAxes axes r, m < r) :
    (∃ T, block_diag (s0 :: rest) axes = .ok T) ↔
      (∀ s ∈ s0 :: rest, ∀ m < r, m ∉ resolveAxes axes r →
        s.shape.getD m 0 = s0.shape.getD m 0 ∨ s.shape.getD m 0 = 1) := by
  subst hr0
  set r := s0.shape.length with hr
  set axesN := resolveAxes axes r with haxN
  set nr := axesN.length with hnr
  set O := axesN ++ (List.range r).filter (fun i => !(axesN.contains i)) with hO
  obtain ⟨hOnd, hOlen, hOvals, hOsurj, hnr_le, hOgetl, hOgetr⟩ :=
    axes_order_facts axesN r hnd haxlt
  set ts := (s0 :: rest).map (fun a => transposeT a O) with hts
  set sumShape := (List.range nr).map
    (fun m => ((ts.map (fun a => a.shape.take nr)).map (fun sh => sh.getD m 0)).sum)
    with hsum
  set res0 := zerosT (sumShape ++ (ts.headD default).shape.drop nr) with hres0
  have hbd : block_diag (s0 :: rest) axes =
      (bdLoop ts res0 (List.replicate nr 0)).map (fun x => transposeT x (argsort O)) := rfl
  have hres0shape : res0.shape = sumShape ++ (ts.headD default).shape.drop nr := rfl
  have ht0 : ts.headD default = transposeT s0 O := rfl
  have hres0len : res0.shape.length = r := by
    rw [hres0shape, List.length_append, hsum, ht0]
    show ((List.range nr).map _).length + ((gather O s0.shape).drop nr).length = r
    rw [List.length_map, List.length_range, List.length_drop, gather_length, hOlen]
    omega
  have hres0getr : ∀ j, nr ≤ j → j < r →
      res0.shape.getD j 0 = s0.shape.getD (O.getD j 0) 0 := by
    intro j hjge hjlt
    rw [hres0shape]
    rw [List.getD_append_right _ _ _ _ (by simpa [hsum] using hjge)]
    have hlen2 : ((List.range nr).map
        (fun m => ((ts.map (fun a => a.shape.take nr)).map (fun sh => sh.getD m 0)).sum)).length
        = nr := by simp
    rw [show (sumShape).length = nr from by rw [hsum]; exact hlen2]
    rw [ht0]
    show ((gather O s0.shape).drop nr).getD (j - nr) 0 = _
    rw [getD_drop, show nr + (j - nr) = j from by omega,
      gather_getD O s0.shape j (hOlen ▸ hjlt)]
  rw [hbd, exists_map_ok, bdLoop_ok_iff, List.length_replicate]
  constructor
  · intro hall s hs m hm hnotm
    have hmemO : m ∈ O := hOsurj m hm
    have hjlt : O.indexOf m < r := hOlen ▸ List.indexOf_lt_length.mpr hmemO
    have hjge : nr ≤ O.indexOf m := by
      by_contra hcon
      push_neg at hcon
      have := hOgetl (O.indexOf m) hcon
      rw [getD_indexOf_self O m hmemO] at this
      exact hnotm (this ▸ getD_mem axesN (O.indexOf m) hcon)
    have hts_mem : transposeT s O ∈ ts := by
      rw [hts]
      exact List.mem_map_of_mem _ hs
    have hp := hall (transposeT s O) hts_mem
    rw [broadcastOk, List.all_eq_true] at hp
    have hpj := hp (O.indexOf m) (by rw [List.mem_range, hres0len]; exact hjlt)
    simp only [Bool.or_eq_true, decide_eq_true_eq, beq_iff_eq] at hpj
    rcases hpj with (hlt2 | heq) | h1
    · omega
    · left
      have harr : (transposeT s O).shape.getD (O.indexOf m) 0 = s.shape.getD m 0 := by
        show (gather O s.shape).getD (O.indexOf m) 0 = _
        rw [gather_getD O s.shape _ (hOlen ▸ hjlt), getD_indexOf_self O m hmemO]
      rw [harr] at heq
      rw [heq, hres0getr _ hjge hjlt, getD_indexOf_self O m hmemO]
    · right
      have harr : (transposeT s O).shape.getD (O.indexOf m) 0 = s.shape.getD m 0 := by
        show (gather O s.shape).getD (O.indexOf m) 0 = _
        rw [gather_getD O s.shape _ (hOlen ▸ hjlt), getD_indexOf_self O m hmemO]
      rw [harr] at h1
      exact h1
  · intro hall a ha
    rw [hts] at ha
    obtain ⟨s, hs, rfl⟩ := List.mem_map.mp ha
    rw [broadcastOk, List.all_eq_true]
    intro j hj
    rw [List.mem_range, hres0len] at hj
    simp only [Bool.or_eq_true, decide_eq_true_eq, beq_iff_eq]
    by_cases hjnr : j < nr
    · exact Or.inl (Or.inl hjnr)
    · push_neg at hjnr
      have hm : O.getD j 0 < r := hOvals _ (getD_mem O j (hOlen ▸ hj))
      have hmnot : O.getD j 0 ∉ axesN := hOgetr j hjnr hj
      have harr : (transposeT s O).shape.getD j 0 = s.shape.getD (O.getD j 0) 0 := by
        show (gather O s.shape).getD j 0 = _
        rw [gather_getD O s.shape j (hOlen ▸ hj)]
      rcases hall s hs (O.getD j 0) hm hmnot with heq | h1
      · refine Or.inl (Or.inr ?_)
        rw [harr, heq, hres0getr j hjnr hj]
      · exact Or.inr (by rw [harr]; exact h1)

/-- Witness for the amended C6: the broadcastable mismatch `(2, 2)` versus
`(2, 1)` along `axes = (0,)` satisfies the characterization's right-hand
side, so `block_diag` succeeds. -/
theorem block_diag_error_characterization_witness :
    ((⟨[2, 2], fun _ => 1⟩ : Tensor).shape.length = 2 ∧
      (resolveAxes [0] 2).Nodup ∧ (∀ m ∈ resolveAxes [0] 2, m < 2)) ∧
    ((∃ T, block_diag [⟨[2, 2], fun _ => 1⟩, ⟨[2, 1], fun _ => 1⟩] [0] = .ok T) ↔
      (∀ s ∈ [(⟨[2, 2], fun _ => 1⟩ : Tensor), ⟨[2, 1], fun _ => 1⟩], ∀ m < 2,
        m ∉ resolveAxes [0] 2 →
        s.shape.getD m 0 = (⟨[2, 2], fun _ => 1⟩ : Tensor).shape.getD m 0 ∨
          s.shape.getD m 0 = 1)) :=
  ⟨⟨rfl, by decide, by decide⟩,
    block_diag_error_characterization ⟨[2, 2], fun _ => 1⟩ [⟨[2, 1], fun _ => 1⟩] [0] 2
      rfl (by decide) (by decide)⟩

/-- The first `(2, 2, 2)` doctest summand of `block_diag`: `np.arange(8)`. -/
def bdExA : Tensor :=
  ⟨[2, 2, 2], fun idx => ⟨(4 * idx.getD 0 0 + 2 * idx.getD 1 0 + idx.getD 2 0 : ℕ), 0⟩⟩

/-- The second `(2, 2, 2)` doctest summand: `np.arange(8, 16)`. -/
def bdExB : Tensor :=
  ⟨[2, 2, 2], fun idx => ⟨(8 + 4 * idx.getD 0 0 + 2 * idx.getD 1 0 + idx.getD 2 0 : ℕ), 0⟩⟩

/-- The expected `(2, 4, 4)` doctest result: per leading-axis slice the block
matrix `[[A, 0], [0, B]]` on the two combined axes. -/
def bdExpected : Tensor :=
  ⟨[2, 4, 4], fun idx =>
    if idx.getD 1 0 < 2 ∧ idx.getD 2 0 < 2 then
      ⟨(4 * idx.getD 0 0 + 2 * idx.getD 1 0 + idx.getD 2 0 : ℕ), 0⟩
    else if 2 ≤ idx.getD 1 0 ∧ 2 ≤ idx.getD 2 0 then
      ⟨(8 + 4 * idx.getD 0 0 + 2 * (idx.getD 1 0 - 2) + (idx.getD 2 0 - 2) : ℕ), 0⟩
    else 0⟩

/-- The general diagonal-block description of `block_diag`: shape, block
placement, and vanishing outside the blocks. -/
theorem block_diag_ok_general (s0 : Tensor) (rest : List Tensor) (axes : List Int)
    (r : Nat) (hr0 : s0.shape.length = r)
    (hrank : ∀ s ∈ s0 :: rest, s.shape.length = r)
    (hnd : (resolveAxes axes r).Nodup)
    (haxlt : ∀ m ∈ resolveAxes axes r, m < r)
    (hne : resolveAxes axes r ≠ [])
    (hoff : ∀ s ∈ s0 :: rest, ∀ m < r, m ∉ resolveAxes axes r →
      s.shape.getD m 0 = s0.shape.getD m 0) :
    ∃ T, block_diag (s0 :: rest) axes = .ok T ∧
      T.shape.length = r ∧
      (∀ m < r, T.shape.getD m 0 =
        if m ∈ resolveAxes axes r
          then ((s0 :: rest).map (fun s => s.shape.getD m 0)).sum
          else s0.shape.getD m 0) ∧
      (∀ k, k < (s0 :: rest).length →
        ∀ idxS ∈ allIndices ((s0 :: rest).getD k default).shape,
        T.entries ((List.range r).map (fun m =>
          if m ∈ resolveAxes axes r
            then idxS.getD m 0 + ∑ i in Finset.range k,
              ((s0 :: rest).getD i default).shape.getD m 0
            else idxS.getD m 0)) =
          ((s0 :: rest).getD k default).entries idxS) ∧
      (∀ idx ∈ allIndices T.shape,
        (∀ k, k < (s0 :: rest).length → ¬ (∀ m ∈ resolveAxes axes r,
          (∑ i in Finset.range k, ((s0 :: rest).getD i default).shape.getD m 0) ≤
            idx.getD m 0 ∧
          idx.getD m 0 < (∑ i in Finset.range k,
            ((s0 :: rest).getD i default).shape.getD m 0) +
            ((s0 :: rest).getD k default).shape.getD m 0)) →
        T.entries idx = 0) := by
  subst hr0
  set r := s0.shape.length with hr
  set axesN := resolveAxes axes r with haxN
  set nr := axesN.length with hnr
  set O := axesN ++ (List.range r).filter (fun i => !(axesN.contains i)) with hO
  obtain ⟨hOnd, hOlen, hOvals, hOsurj, hnr_le, hOgetl, hOgetr⟩ :=
    axes_order_facts axesN r hnd haxlt
  have hnr_pos : 0 < nr := List.length_pos.mpr hne
  set ts := (s0 :: rest).map (fun a => transposeT a O) with hts
  set sumShape := (List.range nr).map
    (fun m => ((ts.map (fun a => a.shape.take nr)).map (fun sh => sh.getD m 0)).sum)
    with hsum
  set res0 := zerosT (sumShape ++ (ts.headD default).shape.drop nr) with hres0
  have hbd : block_diag (s0 :: rest) axes =
      (bdLoop ts res0 (List.replicate nr 0)).map (fun x => transposeT x (argsort O)) := rfl
  have hres0shape : res0.shape = sumShape ++ (ts.headD default).shape.drop nr := rfl
  have ht0 : ts.headD default = transposeT s0 O := rfl
  have hsumlen : sumShape.length = nr := by rw [hsum]; simp
  have hres0len : res0.shape.length = r := by
    rw [hres0shape, List.length_append, hsumlen, ht0]
    show nr + ((gather O s0.shape).drop nr).length = r
    rw [List.length_drop, gather_length, hOlen]
    omega
  have hKts : ts.length = (s0 :: rest).length := by rw [hts]; simp
  have hSmem : ∀ k, k < (s0 :: rest).length → (s0 :: rest).getD k default ∈ s0 :: rest := by
    intro k hk
    rw [getD_lt _ _ _ hk]
    exact List.getElem_mem _
  have hts_getD : ∀ k, k < (s0 :: rest).length →
      ts.getD k default = transposeT ((s0 :: rest).getD k default) O := by
    intro k hk
    rw [hts, getD_lt _ _ _ (by simpa using hk), List.getElem_map, getD_lt _ _ _ hk]
  have hSrank : ∀ k, k < (s0 :: rest).length →
      ((s0 :: rest).getD k default).shape.length = r :=
    fun k hk => hrank _ (hSmem k hk)
  have hres0getr : ∀ j, nr ≤ j → j < r →
      res0.shape.getD j 0 = s0.shape.getD (O.getD j 0) 0 := by
    intro j hjge hjlt
    rw [hres0shape, List.getD_append_right _ _ _ _ (by rw [hsumlen]; exact hjge), hsumlen, ht0]
    show ((gather O s0.shape).drop nr).getD (j - nr) 0 = _
    rw [getD_drop, show nr + (j - nr) = j from by omega,
      gather_getD O s0.shape j (by rw [hOlen]; exact hjlt)]
  have hres0getl : ∀ j, j < nr →
      res0.shape.getD j 0 =
        ((s0 :: rest).map (fun s => s.shape.getD (axesN.getD j 0) 0)).sum := by
    intro j hj
    rw [hres0shape, List.getD_append _ _ _ _ (by rw [hsumlen]; exact hj), hsum,
      getD_map_range _ _ _ _ hj]
    congr 1
    rw [hts, List.map_map, List.map_map]
    refine List.map_congr_left (fun s hs => ?_)
    show ((transposeT s O).shape.take nr).getD j 0 = s.shape.getD (axesN.getD j 0) 0
    rw [getD_take _ _ _ _ hj]
    show (gather O s.shape).getD j 0 = _
    rw [gather_getD O s.shape j (by rw [hOlen]; omega), hOgetl j hj]
  have hok : ∀ a ∈ ts, broadcastOk res0.shape a.shape
      (List.replicate nr (0 : Nat)).length = true := by
    intro a ha
    rw [List.length_replicate]
    obtain ⟨s, hs, rfl⟩ := List.mem_map.mp (hts ▸ ha)
    rw [broadcastOk, List.all_eq_true]
    intro j hj
    rw [List.mem_range, hres0len] at hj
    simp only [Bool.or_eq_true, decide_eq_true_eq, beq_iff_eq]
    by_cases hjnr : j < nr
    · exact Or.inl (Or.inl hjnr)
    · push_neg at hjnr
      refine Or.inl (Or.inr ?_)
      have hm : O.getD j 0 < r := hOvals _ (getD_mem O j (by rw [hOlen]; exact hj))
      have hmnot : O.getD j 0 ∉ axesN := hOgetr j hjnr hj
      have harr : (transposeT s O).shape.getD j 0 = s.shape.getD (O.getD j 0) 0 := by
        show (gather O s.shape).getD j 0 = _
        rw [gather_getD O s.shape j (by rw [hOlen]; exact hj)]
      rw [harr, hoff s hs _ hm hmnot, hres0getr j hjnr hj]
  obtain ⟨R, hRok, hRshape, hRform⟩ := bdLoop_formula ts res0 (List.replicate nr 0) hok
  have hRlen : R.shape.length = r := by rw [hRshape]; exact hres0len
  have hargsort : argsort O = invPerm r O := by rw [argsort, hOlen]
  have hTent : ∀ idx, (transposeT R (argsort O)).entries idx = R.entries (gather O idx) := by
    intro idx
    show R.entries (gather (invPerm R.shape.length (argsort O)) idx) = _
    rw [hRlen, hargsort, invPerm_invPerm r O hOlen hOnd hOvals hOsurj]
  have hidxO : ∀ m ∈ axesN, O.indexOf m = axesN.indexOf m ∧ axesN.indexOf m < nr := by
    intro m hm
    have hj' : axesN.indexOf m < nr := List.indexOf_lt_length.mpr hm
    have hOj : O.getD (axesN.indexOf m) 0 = m := by
      rw [hOgetl _ hj', getD_indexOf_self axesN m hm]
    have h2 := indexOf_getD_self O hOnd (axesN.indexOf m) (by rw [hOlen]; omega)
    rw [hOj] at h2
    exact ⟨h2, hj'⟩
  have hstlen : ∀ k, (stepStarts ts (List.replicate nr 0) k).length = nr := by
    intro k
    rw [stepStarts_length, List.length_replicate]
  have hrep0 : ∀ m : Nat, (List.replicate nr (0 : Nat)).getD m 0 = 0 := by
    intro m
    rcases lt_or_ge m nr with h | h
    · rw [getD_lt _ _ _ (by simpa using h)]
      exact List.getElem_replicate ..
    · exact List.getD_eq_default _ _ (by simpa using h)
  have hst : ∀ k m, k ≤ (s0 :: rest).length → m < nr →
      (stepStarts ts (List.replicate nr 0) k).getD m 0 =
        ∑ i in Finset.range k,
          ((s0 :: rest).getD i default).shape.getD (axesN.getD m 0) 0 := by
    intro k m hk hm
    rw [stepStarts_getD ts _ k m (by simpa using hm) (by rw [hKts]; exact hk), hrep0, zero_add]
    refine Finset.sum_congr rfl (fun i hi => ?_)
    have hik : i < (s0 :: rest).length := lt_of_lt_of_le (Finset.mem_range.mp hi) hk
    rw [hts_getD i hik]
    show (gather O ((s0 :: rest).getD i default).shape).getD m 0 = _
    rw [gather_getD _ _ m (by rw [hOlen]; omega), hOgetl m hm]
  have hext : ∀ k, k < (s0 :: rest).length → ∀ j < r,
      (ts.getD k default).shape.getD j 0 =
        ((s0 :: rest).getD k default).shape.getD (O.getD j 0) 0 := by
    intro k hk j hj
    rw [hts_getD k hk]
    show (gather O ((s0 :: rest).getD k default).shape).getD j 0 = _
    rw [gather_getD _ _ j (by rw [hOlen]; exact hj)]
  refine ⟨transposeT R (argsort O), ?_, ?_, ?_, ?_, ?_⟩
  · rw [hbd, hRok]
    rfl
  · show (gather (argsort O) R.shape).length = r
    rw [gather_length, hargsort, invPerm_length]
  · intro m hm
    show (gather (argsort O) R.shape).getD m 0 = _
    rw [hargsort, gather_getD _ _ m (by rw [invPerm_length]; exact hm),
      invPerm_getD r O m hm, hRshape]
    by_cases hmem : m ∈ axesN
    · rw [if_pos hmem]
      obtain ⟨hOidx, hjlt'⟩ := hidxO m hmem
      rw [hOidx, hres0getl _ hjlt', getD_indexOf_self axesN m hmem]
    · rw [if_neg hmem]
      have hmO : m ∈ O := hOsurj m hm
      have hjlt2 : O.indexOf m < r := by
        rw [← hOlen]
        exact List.indexOf_lt_length.mpr hmO
      have hjge : nr ≤ O.indexOf m := by
        by_contra hcon
        push_neg at hcon
        have h3 := hOgetl (O.indexOf m) hcon
        rw [getD_indexOf_self O m hmO] at h3
        exact hmem (h3 ▸ getD_mem axesN (O.indexOf m) hcon)
      rw [hres0getr _ hjge hjlt2, getD_indexOf_self O m hmO]
  · -- the k-th summand occupies its diagonal block
    intro k hk idxS hidxS
    obtain ⟨hidxlen0, hbnd0⟩ := (mem_allIndices_iff _ _).mp hidxS
    have hidxlen : idxS.length = r := by rw [hidxlen0, hSrank k hk]
    have hbnd : ∀ m < r, idxS.getD m 0 < ((s0 :: rest).getD k default).shape.getD m 0 := by
      intro m hm
      exact hbnd0 m (by rw [hSrank k hk]; exact hm)
    set femb : Nat → Nat := fun m =>
      if m ∈ axesN
        then idxS.getD m 0 + ∑ i in Finset.range k,
          ((s0 :: rest).getD i default).shape.getD m 0
        else idxS.getD m 0 with hfemb
    set embIdx := (List.range r).map femb with hembIdx
    have hy : ∀ j < r, (gather O embIdx).getD j 0 = femb (O.getD j 0) := by
      intro j hj
      rw [gather_getD _ _ j (by rw [hOlen]; exact hj), hembIdx,
        getD_map_range _ _ _ _ (hOvals _ (getD_mem O j (by rw [hOlen]; exact hj)))]
    have hyl : ∀ j < nr, (gather O embIdx).getD j 0 =
        idxS.getD (axesN.getD j 0) 0 + ∑ i in Finset.range k,
          ((s0 :: rest).getD i default).shape.getD (axesN.getD j 0) 0 := by
      intro j hj
      rw [hy j (by omega), hOgetl j hj, hfemb]
      exact if_pos (getD_mem axesN j hj)
    have hblockk : inBlock (stepStarts ts (List.replicate nr 0) k)
        (ts.getD k default).shape (gather O embIdx) = true := by
      rw [inBlock, List.all_eq_true]
      intro j hj
      rw [List.mem_range, hstlen] at hj
      simp only [Bool.and_eq_true, decide_eq_true_eq]
      have ha := haxlt _ (getD_mem axesN j hj)
      rw [hst k j (le_of_lt hk) hj, hyl j hj, hext k hk j (by omega), hOgetl j hj]
      have hb := hbnd (axesN.getD j 0) ha
      omega
    have hblockne : ∀ k', k' < (s0 :: rest).length → k' ≠ k →
        inBlock (stepStarts ts (List.replicate nr 0) k')
          (ts.getD k' default).shape (gather O embIdx) = false := by
      intro k' hk' hne'
      rw [Bool.eq_false_iff]
      intro hall
      rw [inBlock, List.all_eq_true] at hall
      have hj0 := hall 0 (by rw [List.mem_range, hstlen]; exact hnr_pos)
      simp only [Bool.and_eq_true, decide_eq_true_eq] at hj0
      have ha0 := haxlt _ (getD_mem axesN 0 hnr_pos)
      rw [hst k' 0 (le_of_lt hk') hnr_pos, hyl 0 hnr_pos,
        hext k' hk' 0 (by omega), hOgetl 0 hnr_pos] at hj0
      set a0 := axesN.getD 0 0 with ha0def
      have hsucc : ∀ kk, (∑ i in Finset.range (kk + 1),
          ((s0 :: rest).getD i default).shape.getD a0 0) =
          (∑ i in Finset.range kk, ((s0 :: rest).getD i default).shape.getD a0 0) +
            ((s0 :: rest).getD kk default).shape.getD a0 0 :=
        fun kk => Finset.sum_range_succ _ kk
      have hmono : ∀ k1 k2 : Nat, k1 ≤ k2 →
          (∑ i in Finset.range k1, ((s0 :: rest).getD i default).shape.getD a0 0) ≤
            ∑ i in Finset.range k2, ((s0 :: rest).getD i default).shape.getD a0 0 :=
        fun k1 k2 h12 =>
          Finset.sum_le_sum_of_subset (Finset.range_subset.mpr h12)
      have hbk := hbnd a0 ha0
      rcases lt_or_gt_of_ne hne' with hlt2 | hgt2
      · have h1 := hsucc k'
        have h2 := hmono (k' + 1) k (by omega)
        omega
      · have h1 := hsucc k
        have h2 := hmono (k + 1) k' (by omega)
        omega
    have hsingle : ∀ k', k' ∈ Finset.range ts.length → k' ≠ k →
        (if inBlock (stepStarts ts (List.replicate nr 0) k')
            (ts.getD k' default).shape (gather O embIdx) = true
          then (ts.getD k' default).entries
            (blockLocalIdx (stepStarts ts (List.replicate nr 0) k')
              (ts.getD k' default).shape (gather O embIdx))
          else 0) = 0 := by
      intro k' hk' hne'
      rw [hblockne k' (by rw [← hKts]; exact Finset.mem_range.mp hk') hne']
      simp
    have hTe := hTent embIdx
    rw [hTe, hRform]
    show (0 : Cq) + _ = _
    rw [zero_add]
    rw [Finset.sum_eq_single_of_mem k (Finset.mem_range.mpr (by rw [hKts]; exact hk)) hsingle]
    rw [if_pos hblockk]
    have hlocal : blockLocalIdx (stepStarts ts (List.replicate nr 0) k)
        (ts.getD k default).shape (gather O embIdx) = gather O idxS := by
      refine List.ext_getElem ?_ ?_
      · rw [blockLocalIdx, List.length_map, List.length_range, gather_length,
          hts_getD k hk]
        show (gather O ((s0 :: rest).getD k default).shape).length = O.length
        rw [gather_length]
      · intro j hj1 hj2
        have hjr : j < r := by
          rw [gather_length, hOlen] at hj2
          exact hj2
        simp only [blockLocalIdx, List.getElem_map, List.getElem_range]
        rw [hstlen]
        have hRHS : (gather O idxS)[j] = idxS.getD (O.getD j 0) 0 := by
          simp only [gather, List.getElem_map]
          congr 1
          exact (getD_lt O 0 j (by rw [hOlen]; exact hjr)).symm
        rw [hRHS]
        by_cases hjnr : j < nr
        · rw [if_pos hjnr, hyl j hjnr, hst k j (le_of_lt hk) hjnr, hOgetl j hjnr]
          omega
        · rw [if_neg hjnr]
          push_neg at hjnr
          have hOm : O.getD j 0 ∉ axesN := hOgetr j hjnr hjr
          have hOmr : O.getD j 0 < r := hOvals _ (getD_mem O j (by rw [hOlen]; exact hjr))
          have hyv : (gather O embIdx).getD j 0 = idxS.getD (O.getD j 0) 0 := by
            rw [hy j hjr, hfemb]
            exact if_neg hOm
          have hbv := hbnd _ hOmr
          rw [hext k hk j hjr, hyv]
          by_cases h1 : ((s0 :: rest).getD k default).shape.getD (O.getD j 0) 0 = 1
          · rw [if_pos h1]
            rw [h1] at hbv
            omega
          · rw [if_neg h1]
    rw [hlocal, hts_getD k hk]
    show ((s0 :: rest).getD k default).entries
      (gather (invPerm ((s0 :: rest).getD k default).shape.length O) (gather O idxS)) = _
    rw [hSrank k hk]
    rw [gather_gather _ _ idxS (fun a ha => by
      obtain ⟨m, hm, rfl⟩ := List.mem_map.mp ha
      exact List.indexOf_lt_length.mpr (hOsurj m (List.mem_range.mp hm)))]
    rw [gather_invPerm_self r O hOlen hOsurj, gather_range r idxS hidxlen]
  · -- zero outside all diagonal blocks
    intro idx hidx hno
    rw [hTent, hRform]
    show (0 : Cq) + _ = 0
    rw [zero_add]
    refine Finset.sum_eq_zero (fun k' hk' => ?_)
    have hk'len : k' < (s0 :: rest).length := by
      rw [← hKts]
      exact Finset.mem_range.mp hk'
    have hfalse : inBlock (stepStarts ts (List.replicate nr 0) k')
        (ts.getD k' default).shape (gather O idx) = false := by
      rw [Bool.eq_false_iff]
      intro hall
      rw [inBlock, List.all_eq_true] at hall
      refine hno k' hk'len (fun m hm => ?_)
      obtain ⟨hOidx, hjlt'⟩ := hidxO m hm
      have hj := hall (axesN.indexOf m) (by rw [List.mem_range, hstlen]; exact hjlt')
      simp only [Bool.and_eq_true, decide_eq_true_eq] at hj
      rw [hst k' (axesN.indexOf m) (le_of_lt hk'len) hjlt',
        getD_indexOf_self axesN m hm] at hj
      rw [hext k' hk'len (axesN.indexOf m) (by omega),
        hOgetl (axesN.indexOf m) hjlt', getD_indexOf_self axesN m hm] at hj
      have hyv : (gather O idx).getD (axesN.indexOf m) 0 = idx.getD m 0 := by
        rw [gather_getD _ _ _ (by rw [hOlen]; omega), hOgetl (axesN.indexOf m) hjlt',
          getD_indexOf_self axesN m hm]
      rw [hyv] at hj
      exact hj
    rw [hfalse]
    simp

/-- C5: for every non-empty sequence of equal-rank summands whose extents
agree on every axis not listed in `axes` (negative indices resolved modulo
the rank; the listed axes distinct, in range and non-empty), `block_diag`
returns a tensor whose extent on each listed axis is the sum of the summand
extents, whose other extents equal the shared common extent, in which the
`k`-th summand occupies the diagonal block at the cumulative per-axis
offsets of the preceding summands, and every entry outside those diagonal
blocks is zero; in particular, for the two `(2, 2, 2)` summands `0..7` and
`8..15` with `axes = (1, -1)`, the result is the `(2, 4, 4)` tensor with
quadrants `[[A, 0], [0, B]]` per leading-axis slice. -/
theorem block_diag_diagonal_blocks_and_example :
    (∀ (s0 : Tensor) (rest : List Tensor) (axes : List Int) (r : Nat),
      s0.shape.length = r →
      (∀ s ∈ s0 :: rest, s.shape.length = r) →
      (resolveAxes axes r).Nodup →
      (∀ m ∈ resolveAxes axes r, m < r) →
      resolveAxes axes r ≠ [] →
      (∀ s ∈ s0 :: rest, ∀ m < r, m ∉ resolveAxes axes r →
        s.shape.getD m 0 = s0.shape.getD m 0) →
      ∃ T, block_diag (s0 :: rest) axes = .ok T ∧
        T.shape.length = r ∧
        (∀ m < r, T.shape.getD m 0 =
          if m ∈ resolveAxes axes r
            then ((s0 :: rest).map (fun s => s.shape.getD m 0)).sum
            else s0.shape.getD m 0) ∧
        (∀ k, k < (s0 :: rest).length →
          ∀ idxS ∈ allIndices ((s0 :: rest).getD k default).shape,
          T.entries ((List.range r).map (fun m =>
            if m ∈ resolveAxes axes r
              then idxS.getD m 0 + ∑ i in Finset.range k,
                ((s0 :: rest).getD i default).shape.getD m 0
              else idxS.getD m 0)) =
            ((s0 :: rest).getD k default).entries idxS) ∧
        (∀ idx ∈ allIndices T.shape,
          (∀ k, k < (s0 :: rest).length → ¬ (∀ m ∈ resolveAxes axes r,
            (∑ i in Finset.range k, ((s0 :: rest).getD i default).shape.getD m 0) ≤
              idx.getD m 0 ∧
            idx.getD m 0 < (∑ i in Finset.range k,
              ((s0 :: rest).getD i default).shape.getD m 0) +
              ((s0 :: rest).getD k default).shape.getD m 0)) →
          T.entries idx = 0)) ∧
    (∃ C, block_diag [bdExA, bdExB] [1, -1] = .ok C ∧ TensorEq C bdExpected) := by
  refine ⟨block_diag_ok_general, ?_⟩
  obtain ⟨T, hok, hlen, hshape, hblocks, hzeros⟩ :=
    block_diag_ok_general bdExA [bdExB] [1, -1] 3 rfl (by decide) (by decide) (by decide)
      (by decide) (by decide)
  have hres : resolveAxes [1, -1] 3 = [1, 2] := by decide
  have hg0 : T.shape.getD 0 0 = 2 := by
    rw [hshape 0 (by omega)]
    decide
  have hg1 : T.shape.getD 1 0 = 4 := by
    rw [hshape 1 (by omega)]
    decide
  have hg2 : T.shape.getD 2 0 = 4 := by
    rw [hshape 2 (by omega)]
    decide
  have hshape344 : T.shape = [2, 4, 4] := by
    refine List.ext_getElem (by rw [hlen]; rfl) ?_
    intro m hm1 hm2
    rw [hlen] at hm1
    have hmget : T.shape[m] = T.shape.getD m 0 :=
      (getD_lt _ _ _ (by rw [hlen]; exact hm1)).symm
    interval_cases m
    · rw [hmget, hg0]
      rfl
    · rw [hmget, hg1]
      rfl
    · rw [hmget, hg2]
      rfl
  refine ⟨T, hok, by rw [hshape344]; rfl, ?_⟩
  intro idx hidx
  have hidx2 := hidx
  rw [hshape344] at hidx2
  obtain ⟨hlen3, hbnds⟩ := (mem_allIndices_iff _ _).mp hidx2
  have hlen3' : idx.length = 3 := by simpa using hlen3
  have hi0 : idx.getD 0 0 < 2 := by simpa using hbnds 0 (by norm_num)
  have hi1 : idx.getD 1 0 < 4 := by simpa using hbnds 1 (by norm_num)
  have hi2 : idx.getD 2 0 < 4 := by simpa using hbnds 2 (by norm_num)
  set i0 := idx.getD 0 0 with hi0d
  set i1 := idx.getD 1 0 with hi1d
  set i2 := idx.getD 2 0 with hi2d
  have hidxlist : idx = [i0, i1, i2] := by
    refine List.ext_getElem (by rw [hlen3']; rfl) ?_
    intro m hm1 hm2
    rw [hlen3'] at hm1
    interval_cases m
    · exact (getD_lt idx 0 0 (by omega)).symm
    · exact (getD_lt idx 0 1 (by omega)).symm
    · exact (getD_lt idx 0 2 (by omega)).symm
  rw [hidxlist] at hidx ⊢
  have hgetD0 : ((bdExA :: [bdExB]).getD 0 default) = bdExA := rfl
  have hgetD1 : ((bdExA :: [bdExB]).getD 1 default) = bdExB := rfl
  by_cases hA : i1 < 2 ∧ i2 < 2
  · have hmemS : [i0, i1, i2] ∈ allIndices ((bdExA :: [bdExB]).getD 0 default).shape := by
      refine (mem_allIndices_iff _ _).mpr ⟨rfl, ?_⟩
      intro m hm
      have hm3 : m < 3 := by simpa using hm
      interval_cases m
      · exact hi0
      · exact hA.1
      · exact hA.2
    have hb := hblocks 0 (by norm_num) [i0, i1, i2] hmemS
    have harg : (List.range 3).map (fun m =>
        if m ∈ resolveAxes [1, -1] 3
          then [i0, i1, i2].getD m 0 + ∑ i in Finset.range 0,
            ((bdExA :: [bdExB]).getD i default).shape.getD m 0
          else [i0, i1, i2].getD m 0) = [i0, i1, i2] := by
      rw [hres]
      norm_num [List.range_succ]
    rw [harg, hgetD0] at hb
    have hAval : bdExA.entries [i0, i1, i2] = ⟨((4 * i0 + 2 * i1 + i2 : ℕ) : ℚ), 0⟩ := by
      simp only [bdExA, List.getD_cons_zero, List.getD_cons_succ]
    have hexp : bdExpected.entries [i0, i1, i2] = ⟨((4 * i0 + 2 * i1 + i2 : ℕ) : ℚ), 0⟩ := by
      simp only [bdExpected, List.getD_cons_zero, List.getD_cons_succ]
      rw [if_pos hA]
    rw [hb, hAval, hexp]
  · by_cases hB : 2 ≤ i1 ∧ 2 ≤ i2
    · have hmemS : [i0, i1 - 2, i2 - 2] ∈
          allIndices ((bdExA :: [bdExB]).getD 1 default).shape := by
        refine (mem_allIndices_iff _ _).mpr ⟨rfl, ?_⟩
        intro m hm
        have hm3 : m < 3 := by simpa using hm
        interval_cases m
        · exact hi0
        · show i1 - 2 < 2
          omega
        · show i2 - 2 < 2
          omega
      have hb := hblocks 1 (by norm_num) [i0, i1 - 2, i2 - 2] hmemS
      have harg : (List.range 3).map (fun m =>
          if m ∈ resolveAxes [1, -1] 3
            then [i0, i1 - 2, i2 - 2].getD m 0 + ∑ i in Finset.range 1,
              ((bdExA :: [bdExB]).getD i default).shape.getD m 0
            else [i0, i1 - 2, i2 - 2].getD m 0) = [i0, i1 - 2 + 2, i2 - 2 + 2] := by
        rw [hres]
        norm_num [List.range_succ]
        exact ⟨rfl, rfl⟩
      have harg2 : ([i0, i1 - 2 + 2, i2 - 2 + 2] : List Nat) = [i0, i1, i2] := by
        rw [show i1 - 2 + 2 = i1 from by omega, show i2 - 2 + 2 = i2 from by omega]
      rw [harg, harg2, hgetD1] at hb
      have hBval : bdExB.entries [i0, i1 - 2, i2 - 2] =
          ⟨((8 + 4 * i0 + 2 * (i1 - 2) + (i2 - 2) : ℕ) : ℚ), 0⟩ := by
        simp only [bdExB, List.getD_cons_zero, List.getD_cons_succ]
      have hexp : bdExpected.entries [i0, i1, i2] =
          ⟨((8 + 4 * i0 + 2 * (i1 - 2) + (i2 - 2) : ℕ) : ℚ), 0⟩ := by
        simp only [bdExpected, List.getD_cons_zero, List.getD_cons_succ]
        rw [if_neg hA, if_pos hB]
      rw [hb, hBval, hexp]
    · have hz := hzeros [i0, i1, i2] hidx ?_
      · have hexp : bdExpected.entries [i0, i1, i2] = 0 := by
          simp only [bdExpected, List.getD_cons_zero, List.getD_cons_succ]
          rw [if_neg hA, if_neg hB]
        rw [hz, hexp]
      · intro k hk hallm
        rw [hres] at hallm
        have hk2 : k < 2 := by simpa using hk
        interval_cases k
        · have h1 := hallm 1 (by norm_num)
          have h2 := hallm 2 (by norm_num)
          simp only [List.getD_cons_zero, List.getD_cons_succ, Finset.range_zero,
            Finset.sum_empty, Nat.zero_add, hgetD0] at h1 h2
          have hbA1 : bdExA.shape.getD 1 0 = 2 := rfl
          have hbA2 : bdExA.shape.getD 2 0 = 2 := rfl
          rw [hbA1] at h1
          rw [hbA2] at h2
          exact hA ⟨by omega, by omega⟩
        · have h1 := hallm 1 (by norm_num)
          have h2 := hallm 2 (by norm_num)
          simp only [List.getD_cons_zero, List.getD_cons_succ, Finset.sum_range_one,
            hgetD0, hgetD1] at h1 h2
          have hbA1 : bdExA.shape.getD 1 0 = 2 := rfl
          have hbA2 : bdExA.shape.getD 2 0 = 2 := rfl
          rw [hbA1] at h1
          rw [hbA2] at h2
          exact hB ⟨by omega, by omega⟩

/-- C9 counterexample: at the all-zero draw state (`sites = 1`, `ldim = 2`)
the Gaussian matrix is zero, so `np.trace(rho)` is zero and the division
leaves the trace at 0 (nan in floating point) — not within `1e-6` of 1.
The claim's "for every state of the random source" therefore fails at this
degenerate state. -/
theorem random_state_zero_draws_trace_not_one :
    ¬ |(traceM (random_state_rho 1 2 (fun _ => 0))).re - 1| ≤ 1 / 1000000 := by
  have h : traceM (random_state_rho 1 2 (fun _ => 0)) = 0 := by
    show traceM (matDiv (matMul (conjTrans (zrandnMat (2 ^ 1) (fun _ => 0)))
      (zrandnMat (2 ^ 1) (fun _ => 0))) _) = 0
    rw [traceM_matDiv]
    have hz : ∀ i j : Fin (2 ^ 1), zrandnMat (2 ^ 1) (fun _ => 0) i j = 0 := by
      intro i j
      ext <;> rfl
    have h0 : traceM (matMul (conjTrans (zrandnMat (2 ^ 1) (fun _ => 0)))
        (zrandnMat (2 ^ 1) (fun _ => 0))) = 0 := by
      rw [traceM]
      refine Finset.sum_eq_zero (fun i _ => ?_)
      rw [matMul_conjTrans_apply]
      refine Finset.sum_eq_zero (fun k _ => ?_)
      rw [hz]
      ring
    rw [h0, Cq.zero_div]
  rw [h]
  norm_num

/-- C9 amended: for every `sites`, `ldim` and every draw state whose Gaussian
matrix `M` is nonzero (the division by `np.trace` is undefined otherwise),
`random_state` returns `M† M` divided by its trace, reshaped to the global
form `(ldim,) * 2 * sites`; viewed as an `ldim^sites × ldim^sites` matrix it
is Hermitian and positive semidefinite — the quadratic form `v† ρ v` is real
and nonnegative and every eigenvalue is real and at least `-1e-9` (indeed at
least 0) — with trace exactly 1, hence within `1e-6` of 1. -/
theorem random_state_properties (sites ldim : Nat) (g : Nat → ℚ)
    (hmat : ∃ i j, zrandnMat (ldim ^ sites) g i j ≠ 0) :
    (random_state sites ldim g).shape = List.replicate (2 * sites) ldim ∧
    (∀ i j : Fin (ldim ^ sites),
      matView (random_state sites ldim g) (ldim ^ sites) i.val j.val =
        random_state_rho sites ldim g i j) ∧
    conjTrans (random_state_rho sites ldim g) = random_state_rho sites ldim g ∧
    (∀ v : Fin (ldim ^ sites) → Cq,
      (QForm (random_state_rho sites ldim g) v).im = 0 ∧
      0 ≤ (QForm (random_state_rho sites ldim g) v).re) ∧
    (∀ (lam : Cq) (v : Fin (ldim ^ sites) → Cq), v ≠ 0 →
      mulVec (random_state_rho sites ldim g) v = (fun i => lam * v i) →
      lam.im = 0 ∧ -(1 / 1000000000 : ℚ) ≤ lam.re) ∧
    traceM (random_state_rho sites ldim g) = 1 ∧
    |(traceM (random_state_rho sites ldim g)).re - 1| ≤ 1 / 1000000 := by
  obtain ⟨a, b, hab⟩ := hmat
  have hrho : random_state_rho sites ldim g =
      matDiv (matMul (conjTrans (zrandnMat (ldim ^ sites) g)) (zrandnMat (ldim ^ sites) g))
        (traceM (matMul (conjTrans (zrandnMat (ldim ^ sites) g))
          (zrandnMat (ldim ^ sites) g))) := rfl
  set M := zrandnMat (ldim ^ sites) g with hM
  set rho0 := matMul (conjTrans M) M with hrho0
  have htr_re_pos : 0 < (traceM rho0).re := by
    rw [hrho0, gram_trace_re]
    refine Finset.sum_pos'
      (fun i _ => Finset.sum_nonneg (fun k _ => Cq.normSq_nonneg _))
      ⟨b, Finset.mem_univ b, ?_⟩
    exact Finset.sum_pos' (fun k _ => Cq.normSq_nonneg _)
      ⟨a, Finset.mem_univ a, Cq.normSq_pos hab⟩
  have htr_im : (traceM rho0).im = 0 := by rw [hrho0]; exact gram_trace_im M
  have htr_form : traceM rho0 = ⟨(traceM rho0).re, 0⟩ := by
    ext
    · rfl
    · exact htr_im
  have htr_ne : traceM rho0 ≠ 0 := by
    intro h0
    rw [h0] at htr_re_pos
    simp at htr_re_pos
  have hq_im : ∀ v, (QForm rho0 v).im = 0 := by
    intro v
    rw [hrho0, gram_qform, Cq.im_sum]
    exact Finset.sum_eq_zero (fun k _ => by rw [Cq.conj_mul_self])
  have hq_re : ∀ v, 0 ≤ (QForm rho0 v).re := by
    intro v
    rw [hrho0, gram_qform, Cq.re_sum]
    refine Finset.sum_nonneg (fun k _ => ?_)
    rw [Cq.conj_mul_self]
    exact Cq.normSq_nonneg _
  have hqdiv : ∀ v, QForm (random_state_rho sites ldim g) v = (QForm rho0 v).div (traceM rho0) := by
    intro v
    rw [hrho, QForm_matDiv]
  have hqprops : ∀ v : Fin (ldim ^ sites) → Cq,
      (QForm (random_state_rho sites ldim g) v).im = 0 ∧
      0 ≤ (QForm (random_state_rho sites ldim g) v).re := by
    intro v
    rw [hqdiv v, htr_form, Cq.div_real htr_re_pos.ne']
    constructor
    · show (QForm rho0 v).im / (traceM rho0).re = 0
      rw [hq_im v]
      simp
    · exact div_nonneg (hq_re v) htr_re_pos.le
  refine ⟨rfl, matView_random_state sites ldim g, ?_, hqprops, ?_, ?_, ?_⟩
  · rw [hrho, conjTrans_matDiv]
    rw [show conjTrans rho0 = rho0 from gram_hermitian M]
    rw [Cq.conj_of_im_zero htr_im]
  · intro lam v hv0 heig
    obtain ⟨c, hc⟩ := Function.ne_iff.mp hv0
    have hcne : v c ≠ 0 := hc
    have hN : 0 < ∑ i, (v i).normSq :=
      Finset.sum_pos' (fun i _ => Cq.normSq_nonneg _)
        ⟨c, Finset.mem_univ c, Cq.normSq_pos hcne⟩
    have hsum : ∑ i, (v i).conj * v i = (⟨∑ i, (v i).normSq, 0⟩ : Cq) := by
      ext
      · rw [Cq.re_sum]
        exact Finset.sum_congr rfl (fun i _ => by rw [Cq.conj_mul_self])
      · rw [Cq.im_sum]
        exact Finset.sum_eq_zero (fun i _ => by rw [Cq.conj_mul_self])
    have hquad : QForm (random_state_rho sites ldim g) v =
        lam * ⟨∑ i, (v i).normSq, 0⟩ := by
      calc QForm (random_state_rho sites ldim g) v
          = ∑ i, (v i).conj * mulVec (random_state_rho sites ldim g) v i :=
            QForm_eq_sum_mulVec _ _
        _ = ∑ i, (v i).conj * (lam * v i) := by rw [heig]
        _ = ∑ i, lam * ((v i).conj * v i) := by
            exact Finset.sum_congr rfl (fun i _ => by ring)
        _ = lam * ∑ i, (v i).conj * v i := (Finset.mul_sum _ _ _).symm
        _ = lam * ⟨∑ i, (v i).normSq, 0⟩ := by rw [hsum]
    obtain ⟨him, hre⟩ := hqprops v
    rw [hquad] at him hre
    simp only [Cq.mul_im, Cq.mul_re] at him hre
    have hlim : lam.im = 0 := by
      have : lam.im * (∑ i, (v i).normSq) = 0 := by linarith
      rcases mul_eq_zero.mp this with h | h
      · exact h
      · exact absurd h hN.ne'
    have hlre : 0 ≤ lam.re := by
      have h1 : 0 ≤ lam.re * (∑ i, (v i).normSq) := by linarith
      by_contra hcon
      push_neg at hcon
      nlinarith
    exact ⟨hlim, by linarith⟩
  · rw [hrho, traceM_matDiv]
    exact Cq.div_self htr_ne
  · have h1 : traceM (random_state_rho sites ldim g) = 1 := by
      rw [hrho, traceM_matDiv]
      exact Cq.div_self htr_ne
    rw [h1]
    norm_num

/-- Witness for the amended C9: `sites = 1`, `ldim = 2`, a draw stream whose
first draw is 1 and all others 0. -/
theorem random_state_properties_witness :
    (∃ i j, zrandnMat (2 ^ 1) (fun n => if n = 0 then 1 else 0) i j ≠ 0) ∧
    ((random_state 1 2 (fun n => if n = 0 then 1 else 0)).shape =
        List.replicate (2 * 1) 2 ∧
      (∀ i j : Fin (2 ^ 1),
        matView (random_state 1 2 (fun n => if n = 0 then 1 else 0)) (2 ^ 1) i.val j.val =
          random_state_rho 1 2 (fun n => if n = 0 then 1 else 0) i j) ∧
      conjTrans (random_state_rho 1 2 (fun n => if n = 0 then 1 else 0)) =
        random_state_rho 1 2 (fun n => if n = 0 then 1 else 0) ∧
      (∀ v : Fin (2 ^ 1) → Cq,
        (QForm (random_state_rho 1 2 (fun n => if n = 0 then 1 else 0)) v).im = 0 ∧
        0 ≤ (QForm (random_state_rho 1 2 (fun n => if n = 0 then 1 else 0)) v).re) ∧
      (∀ (lam : Cq) (v : Fin (2 ^ 1) → Cq), v ≠ 0 →
        mulVec (random_state_rho 1 2 (fun n => if n = 0 then 1 else 0)) v =
          (fun i => lam * v i) →
        lam.im = 0 ∧ -(1 / 1000000000 : ℚ) ≤ lam.re) ∧
      traceM (random_state_rho 1 2 (fun n => if n = 0 then 1 else 0)) = 1 ∧
      |(traceM (random_state_rho 1 2 (fun n => if n = 0 then 1 else 0))).re - 1| ≤
        1 / 1000000) :=
  ⟨⟨0, 0, fun h => by
      have := congrArg Cq.re h
      simp [zrandnMat] at this⟩,
    random_state_properties 1 2 (fun n => if n = 0 then 1 else 0)
      ⟨0, 0, fun h => by
        have := congrArg Cq.re h
        simp [zrandnMat] at this⟩⟩

/-- C1: with the supplied random source held fixed, both `_gue`'s Gaussian
draws and `random_mpdo`'s mixture weights change when only the global
`np.random` stream changes, and `_gue` consumes exactly the draws it would
consume with no source supplied at all: the sampled objects are functions of
the global stream, not deterministic functions of the supplied source's draw
sequence. -/
theorem gue_and_mpdo_weights_read_global_stream :
    _gue_draws 2 (some (fun _ => 5)) (fun _ => 1) ≠
      _gue_draws 2 (some (fun _ => 5)) (fun n => if n = 0 then 2 else 1) ∧
    _gue_draws 2 (some (fun _ => 5)) (fun _ => 1) =
      _gue_draws 2 none (fun _ => 1) ∧
    random_mpdo_weights 2 (fun _ => 1) ≠
      random_mpdo_weights 2 (fun n => if n = 0 then 2 else 1) := by
  refine ⟨by decide, rfl, by simp [random_mpdo_weights, List.range_succ]⟩

end Mpnum